import Mathlib

/-!
The expression compilers of chapter 2 of ugo-c-book.

A shallow embedding of the Go sources

* `examples/ch02/04-lex-parser-v2/token.go`, `compiler.go` and `main.go`,
* `examples/ch02/03-lex-parser/compiler.go` and `main.go`,
* `examples/ch02/01-add-sub/main.go`,

together with theorems about the C text they generate and about what the
drivers do with it.

Conventions of the embedding.

* A Go `string` is a `Str`, the list of its Unicode code points (the inputs
  considered are valid UTF-8 text).
* A Go `int` counter is a `Nat`; the counters here only ever count the nodes
  of a tree that fits in memory, so no wrap-around is modelled.
* A `*ExprNode` is a value of the inductive type `ExprNode`, whose constructor
  `nil` is the nil pointer.
* A `bytes.Buffer` that only receives `fmt.Fprintf`/`fmt.Fprintln` calls is the
  list of the lines written so far, each line kept with the arguments of the
  call that wrote it (`Stmt`); `Stmt.text` is the text of a line and
  `bufString` the content of the buffer.
* A function that can panic returns an `Option`, `none` being the panic; a
  loop that is not structural takes fuel and returns `none` when it runs out.
* The generated lines have two semantics.  `exec` is the one that the claim
  about `GenC` describes: over the unbounded integers, with `/` truncating and
  numerals read in base ten.  `execC` is the one of the C compiler: the type
  `int` of 32 bits, a constant that begins with `0` read in base eight, signed
  overflow without a value.
-/

namespace UgoBook

/-- A Go string, as the list of its code points. -/
abbrev Str := List Char

/-! ## `token.go` -/

/-- Go `type TokenType int`. -/
abbrev TokenType := Int

/-- Go `EOF TokenType = iota`. -/
def EOF : TokenType := 0
/-- Second constant of the `iota` block. -/
def ILLEGAL : TokenType := 1
/-- Third constant of the `iota` block. -/
def NUMBER : TokenType := 2
/-- The token `+`. -/
def ADD : TokenType := 3
/-- The token `-`. -/
def SUB : TokenType := 4
/-- The token `*`. -/
def MUL : TokenType := 5
/-- The token `/`. -/
def DIV : TokenType := 6
/-- The token `(`. -/
def LPAREN : TokenType := 7
/-- The token `)`. -/
def RPAREN : TokenType := 8

/-- Go `type Token struct { Type TokenType; Val string; Pos int }`. -/
structure Token where
  /-- The field `Type` of the source (`Type` is reserved in Lean). -/
  Typ : TokenType
  Val : Str
  Pos : Int
deriving DecidableEq, Repr

/-- Go `func (op TokenType) Precedence() int`. -/
def Precedence (op : TokenType) : Int :=
  if op = ADD ∨ op = SUB then 1
  else if op = MUL ∨ op = DIV then 2
  else 0

/-! ## `compiler.go` (04-lex-parser-v2) -/

/-- A value of type `*ExprNode`: the nil pointer, or a node with the fields
`Token`, `Left` and `Right` that `genValue` reads. -/
inductive ExprNode where
  | nil : ExprNode
  | node (Token : Token) (Left Right : ExprNode) : ExprNode
deriving DecidableEq, Repr

/-- One line written into the output buffer, with the arguments of the
`Fprintf` call that wrote it. -/
inductive Stmt where
  /-- The line `"int main() {\n"`. -/
  | header : Stmt
  /-- The line `"\tint %s = %s;\n"`. -/
  | assign (id val : Str) : Stmt
  /-- The line `"\tint %s = %s <op> %s;\n"`, where `<op>` is one of `+ - * /` and is
  part of the format string. -/
  | binop (id lhs : Str) (op : Char) (rhs : Str) : Stmt
  /-- The line `"\treturn %s;\n"`. -/
  | ret (id : Str) : Stmt
  /-- The line `"}\n"`. -/
  | footer : Stmt
deriving DecidableEq, Repr

/-- The text of a line. -/
def Stmt.text : Stmt → Str
  | .header => "int main() \x7b\n".toList
  | .assign id val => "\tint ".toList ++ id ++ " = ".toList ++ val ++ ";\n".toList
  | .binop id lhs op rhs =>
      "\tint ".toList ++ id ++ " = ".toList ++ lhs ++ [' ', op, ' '] ++ rhs ++ ";\n".toList
  | .ret id => "\treturn ".toList ++ id ++ ";\n".toList
  | .footer => "\x7d\n".toList

/-- Go `buf.String()`: the lines written so far, one after the other. -/
def bufString (buf : List Stmt) : Str :=
  (buf.map Stmt.text).flatten

/-- Go `fmt.Sprintf("t%d", n)`. -/
def tmp (n : Nat) : Str := 't' :: Nat.toDigits 10 n

/-- Go `type Compiler struct { nextId int }`. -/
structure Compiler where
  nextId : Nat
deriving DecidableEq, Repr

/-- Go `new(Compiler)`. -/
def Compiler.new : Compiler := Compiler.mk 0

/-- Go `func (p *Compiler) genId() string`: the id and the compiler afterwards. -/
def Compiler.genId (p : Compiler) : Str × Compiler :=
  (tmp p.nextId, Compiler.mk (p.nextId + 1))

/-- Go `func (p *Compiler) genValue(w io.Writer, node *ExprNode) (id string)`.
The result is the returned id, the compiler afterwards and the writer
afterwards.  The id is taken with `genId` before the `switch`; in an operator
case the two recursive calls are the arguments of `Fprintf`, evaluated left
to right before the line of the node itself is written. -/
def Compiler.genValue : ExprNode → Compiler → List Stmt → Str × Compiler × List Stmt
  | .nil, p, w => ([], p, w)
  | .node tok left right, p, w =>
    let (id, p1) := p.genId
    if tok.Typ = ADD then
      let (l, p2, w2) := Compiler.genValue left p1 w
      let (r, p3, w3) := Compiler.genValue right p2 w2
      (id, p3, w3 ++ [Stmt.binop id l '+' r])
    else if tok.Typ = SUB then
      let (l, p2, w2) := Compiler.genValue left p1 w
      let (r, p3, w3) := Compiler.genValue right p2 w2
      (id, p3, w3 ++ [Stmt.binop id l '-' r])
    else if tok.Typ = MUL then
      let (l, p2, w2) := Compiler.genValue left p1 w
      let (r, p3, w3) := Compiler.genValue right p2 w2
      (id, p3, w3 ++ [Stmt.binop id l '*' r])
    else if tok.Typ = DIV then
      let (l, p2, w2) := Compiler.genValue left p1 w
      let (r, p3, w3) := Compiler.genValue right p2 w2
      (id, p3, w3 ++ [Stmt.binop id l '/' r])
    else (id, p1, w ++ [Stmt.assign id tok.Val])

/-- The buffer of `GenC` just before `buf.String()`, with the compiler
afterwards. -/
def Compiler.GenCBuf (p : Compiler) (node : ExprNode) : List Stmt × Compiler :=
  let buf := [Stmt.header]
  let (id, p1, buf1) := Compiler.genValue node p buf
  (buf1 ++ [Stmt.ret id] ++ [Stmt.footer], p1)

/-- Go `func (p *Compiler) GenC(node *ExprNode) string`. -/
def Compiler.GenC (p : Compiler) (node : ExprNode) : Str :=
  bufString (p.GenCBuf node).1

/-! ## Trees used as examples -/

/-- A `NUMBER` leaf with the given text. -/
def num (v : String) : ExprNode :=
  .node (Token.mk NUMBER v.toList 0) .nil .nil

/-- An operator node. -/
def bin (ty : TokenType) (v : String) (l r : ExprNode) : ExprNode :=
  .node (Token.mk ty v.toList 0) l r

/-- The tree of `2*(3+4)`. -/
def tree_2_mul_3_add_4 : ExprNode := bin MUL "*" (num "2") (bin ADD "+" (num "3") (num "4"))

/-- The tree of `1+2*(3+4)`, the `code` of `03-lex-parser/main.go`. -/
def tree_1_add_2_mul_3_add_4 : ExprNode := bin ADD "+" (num "1") tree_2_mul_3_add_4

/-- The tree of `10/3`. -/
def tree_10_div_3 : ExprNode := bin DIV "/" (num "10") (num "3")

/-- The tree of `1+2`. -/
def tree_1_add_2 : ExprNode := bin ADD "+" (num "1") (num "2")

/-! ## `main.go` (01-add-sub) -/

/-- Go `unicode.IsSpace`: the characters that `strings.TrimSpace` removes. -/
def isSpace (c : Char) : Bool :=
  let n := c.toNat
  (9 ≤ n && n ≤ 13) || n == 0x20 || n == 0x85 || n == 0xA0 || n == 0x1680 ||
    (0x2000 ≤ n && n ≤ 0x200A) || n == 0x2028 || n == 0x2029 || n == 0x202F ||
    n == 0x205F || n == 0x3000

/-- Go `strings.TrimSpace`: the string without its leading and trailing white
space. -/
def TrimSpace (s : Str) : Str :=
  (((s.dropWhile isSpace).reverse).dropWhile isSpace).reverse

/-- Go `strings.IndexAny`: the index of the first character of `s` that is one of
`chars`, or `-1` when there is none. -/
def IndexAny : Str → Str → Int
  | [], _ => -1
  | c :: s, chars =>
    if c ∈ chars then 0
    else if IndexAny s chars < 0 then -1
    else IndexAny s chars + 1

/-- The loop of `parse_tokens`, one iteration for each unit of fuel; `none`
when the fuel runs out before the loop ends. -/
def parse_tokens_loop : Nat → Str → List Str → Option (List Str)
  | 0, _, _ => none
  | fuel + 1, code, tokens =>
    if code = [] then some tokens
    else
      let idx := IndexAny code "+-".toList
      if idx ≥ 0 then
        let tokens1 :=
          if idx > 0 then tokens ++ [TrimSpace (code.take idx.toNat)] else tokens
        let tokens2 := tokens1 ++ [(code.drop idx.toNat).take 1]
        parse_tokens_loop fuel (code.drop (idx.toNat + 1)) tokens2
      else some (tokens ++ [TrimSpace code])

/-- Go `func parse_tokens(code string) (tokens []string)`.  Every iteration but
the last removes at least one character of `code`, so one more unit of fuel
than `code` has characters is enough (`parse_tokens_eq`). -/
def parse_tokens (code : Str) : Option (List Str) :=
  parse_tokens_loop (code.length + 1) code []

/-- The `range` loop of `gen_c` from index `i` on, `rest` being `tokens[i:]`;
the result is `idx` and the buffer after the loop, `none` when `tokens[i+1]`
is out of range. -/
def gen_c_loop (tokens : List Str) : Nat → List Str → Nat → List Stmt → Option (Nat × List Stmt)
  | _, [], idx, buf => some (idx, buf)
  | i, tok :: rest, idx, buf =>
    if i = 0 then
      gen_c_loop tokens (i + 1) rest idx (buf ++ [Stmt.binop (tmp idx) "0".toList '+' tok])
    else if tok = "+".toList then
      match tokens.get? (i + 1) with
      | none => none
      | some next =>
        gen_c_loop tokens (i + 1) rest (idx + 1)
          (buf ++ [Stmt.binop (tmp (idx + 1)) (tmp (idx + 1 - 1)) '+' next])
    else if tok = "-".toList then
      match tokens.get? (i + 1) with
      | none => none
      | some next =>
        gen_c_loop tokens (i + 1) rest (idx + 1)
          (buf ++ [Stmt.binop (tmp (idx + 1)) (tmp (idx + 1 - 1)) '-' next])
    else gen_c_loop tokens (i + 1) rest idx buf

/-- The buffer of `gen_c` just before `buf.String()`. -/
def gen_c_buf (tokens : List Str) : Option (List Stmt) :=
  match gen_c_loop tokens 0 tokens 0 [Stmt.header] with
  | none => none
  | some (idx, buf) => some (buf ++ [Stmt.ret (tmp idx)] ++ [Stmt.footer])

/-- Go `func gen_c(tokens []string) string`; `none` is the run-time panic of an
index out of range. -/
def gen_c (tokens : List Str) : Option Str :=
  (gen_c_buf tokens).map bufString

/-- The pipeline `gen_c(parse_tokens(code))` of `compile`: the text written to
`a.out.c`. -/
def compileText (code : Str) : Option Str :=
  match parse_tokens code with
  | none => none
  | some tokens => gen_c tokens

/-- The pipeline `gen_c(parse_tokens(code))` of `compile`, as lines. -/
def compileBuf (code : Str) : Option (List Stmt) :=
  match parse_tokens code with
  | none => none
  | some tokens => gen_c_buf tokens

/-! ## `compiler.go` (03-lex-parser) -/

namespace LexParser

/-- A value of type `*ExprNode` of 03-lex-parser: the nil pointer, or a node
with the fields `Value`, `Left` and `Right` that `genValue` reads. -/
inductive ExprNode where
  | nil : ExprNode
  | node (Value : Str) (Left Right : ExprNode) : ExprNode
deriving DecidableEq, Repr

/-- Go `type Compiler struct { nextId int }`. -/
structure Compiler where
  nextId : Nat
deriving DecidableEq, Repr

/-- Go `new(Compiler)`. -/
def Compiler.new : Compiler := Compiler.mk 0

/-- Go `func (p *Compiler) genId() string`. -/
def Compiler.genId (p : Compiler) : Str × Compiler :=
  (tmp p.nextId, Compiler.mk (p.nextId + 1))

/-- Go `func (p *Compiler) genValue(w io.Writer, node *ExprNode) (id string)`,
with the `switch` on `node.Value`. -/
def Compiler.genValue : ExprNode → Compiler → List Stmt → Str × Compiler × List Stmt
  | .nil, p, w => ([], p, w)
  | .node value left right, p, w =>
    let (id, p1) := p.genId
    if value = "+".toList then
      let (l, p2, w2) := Compiler.genValue left p1 w
      let (r, p3, w3) := Compiler.genValue right p2 w2
      (id, p3, w3 ++ [Stmt.binop id l '+' r])
    else if value = "-".toList then
      let (l, p2, w2) := Compiler.genValue left p1 w
      let (r, p3, w3) := Compiler.genValue right p2 w2
      (id, p3, w3 ++ [Stmt.binop id l '-' r])
    else if value = "*".toList then
      let (l, p2, w2) := Compiler.genValue left p1 w
      let (r, p3, w3) := Compiler.genValue right p2 w2
      (id, p3, w3 ++ [Stmt.binop id l '*' r])
    else if value = "/".toList then
      let (l, p2, w2) := Compiler.genValue left p1 w
      let (r, p3, w3) := Compiler.genValue right p2 w2
      (id, p3, w3 ++ [Stmt.binop id l '/' r])
    else (id, p1, w ++ [Stmt.assign id value])

/-- The buffer of `GenC` just before `buf.String()`, with the compiler
afterwards. -/
def Compiler.GenCBuf (p : Compiler) (node : ExprNode) : List Stmt × Compiler :=
  let buf := [Stmt.header]
  let (id, p1, buf1) := Compiler.genValue node p buf
  (buf1 ++ [Stmt.ret id] ++ [Stmt.footer], p1)

/-- Go `func (p *Compiler) GenC(node *ExprNode) string`. -/
def Compiler.GenC (p : Compiler) (node : ExprNode) : Str :=
  bufString (p.GenCBuf node).1

end LexParser

/-! ## The drivers: `run` and `compile` of the three `main.go` -/

/-- The error of a finished command: an `*exec.ExitError` with its exit
code, or any other error (the command could not be started). -/
inductive CmdError where
  | exitError (code : Int) : CmdError
  | other : CmdError
deriving DecidableEq, Repr

/-- What `Run()` or `CombinedOutput()` gives back: the output of the command
and its error, `none` for `nil`. -/
structure CmdResult where
  output : Str
  err : Option CmdError
deriving DecidableEq, Repr

/-- The two collaborators of a driver: the toolchain, which answers to
`gcc a.out.c` given the text of `a.out.c`, and the execution of the
artifact. -/
structure Host where
  toolchain : Str → CmdResult
  artifact : CmdResult

/-- What a driver does to the outside, in order. -/
inductive Event where
  /-- The call `os.WriteFile(name, data, 0666)`. -/
  | writeFile (name data : Str) : Event
  /-- The call `exec.Command("gcc", file)` run to its end. -/
  | gcc (file : Str) : Event
  /-- The call `exec.Command(path)` run to its end: the execution of the artifact. -/
  | execArtifact (path : Str) : Event
  /-- The call `fmt.Print(text)`. -/
  | print (text : Str) : Event
deriving DecidableEq, Repr

/-- How a call ends: it returns a value, the process exits through
`os.Exit`, or it panics. -/
inductive Outcome (α : Type) where
  | returned (value : α) : Outcome α
  | exited (code : Int) : Outcome α
  | panicked : Outcome α
deriving DecidableEq, Repr

/-- The end of `run` after the artifact has run: `0` when `err == nil`, the
exit code of `err.(*exec.ExitError)` otherwise; the type assertion panics on
another error. -/
def exitCodeOf (r : CmdResult) : Outcome Int :=
  match r.err with
  | none => .returned 0
  | some (.exitError code) => .returned code
  | some .other => .panicked

namespace AddSub

/-- Go `func compile(code string)` of 01-add-sub: the result of `gcc` is
dropped. -/
def compile (_host : Host) (code : Str) : List Event × Outcome Unit :=
  match parse_tokens code with
  | none => ([], .panicked)
  | some tokens =>
    match gen_c tokens with
    | none => ([], .panicked)
    | some output =>
      ([Event.writeFile "a.out.c".toList output, Event.gcc "a.out.c".toList], .returned ())

/-- Go `func run(code string) int` of 01-add-sub. -/
def run (host : Host) (code : Str) : List Event × Outcome Int :=
  match compile host code with
  | (events, .returned _) =>
    (events ++ [Event.execArtifact "./a.out".toList], exitCodeOf host.artifact)
  | (events, .exited c) => (events, .exited c)
  | (events, .panicked) => (events, .panicked)

end AddSub

namespace LexParser

/-- Go `func compile(node *ExprNode)` of 03-lex-parser: the result of `gcc` is
dropped. -/
def compile (_host : Host) (node : ExprNode) : List Event × Outcome Unit :=
  let output := Compiler.new.GenC node
  ([Event.writeFile "a.out.c".toList output, Event.gcc "a.out.c".toList], .returned ())

/-- Go `func run(node *ExprNode) int` of 03-lex-parser. -/
def run (host : Host) (node : ExprNode) : List Event × Outcome Int :=
  match compile host node with
  | (events, .returned _) =>
    (events ++ [Event.execArtifact "./a.out".toList], exitCodeOf host.artifact)
  | (events, .exited c) => (events, .exited c)
  | (events, .panicked) => (events, .panicked)

end LexParser

namespace LexParserV2

/-- Go `func compile(node *ExprNode)` of 04-lex-parser-v2: when `gcc` reports an
error its output is printed and the process exits with status 1. -/
def compile (host : Host) (node : ExprNode) : List Event × Outcome Unit :=
  let output := Compiler.new.GenC node
  let r := host.toolchain output
  match r.err with
  | some _ =>
    ([Event.writeFile "a.out.c".toList output, Event.gcc "a.out.c".toList, Event.print r.output],
      .exited 1)
  | none =>
    ([Event.writeFile "a.out.c".toList output, Event.gcc "a.out.c".toList], .returned ())

/-- Go `func run(node *ExprNode) int` of 04-lex-parser-v2. -/
def run (host : Host) (node : ExprNode) : List Event × Outcome Int :=
  match compile host node with
  | (events, .returned _) =>
    match host.artifact.err with
    | some _ =>
      (events ++ [Event.execArtifact "./a.exe".toList, Event.print host.artifact.output],
        exitCodeOf host.artifact)
    | none => (events ++ [Event.execArtifact "./a.exe".toList], .returned 0)
  | (events, .exited c) => (events, .exited c)
  | (events, .panicked) => (events, .panicked)

end LexParserV2

/-- The artifact is executed at some point of a trace. -/
def executesArtifact (events : List Event) : Bool :=
  events.any (fun e => match e with | .execArtifact _ => true | _ => false)

/-- A host whose toolchain always fails with status 1 and the given output,
and beside which an older artifact lies that ends with the given status. -/
def failingHost (diagnostic : Str) (stale : Int) : Host :=
  Host.mk (fun _ => CmdResult.mk diagnostic (some (CmdError.exitError 1)))
    (CmdResult.mk [] (some (CmdError.exitError stale)))

/-- The tree of `1+2*(3+4)` of 03-lex-parser (the `code` of its `main.go`). -/
def LexParser.tree_1_add_2_mul_3_add_4 : LexParser.ExprNode :=
  .node "+".toList (.node "1".toList .nil .nil)
    (.node "*".toList (.node "2".toList .nil .nil)
      (.node "+".toList (.node "3".toList .nil .nil) (.node "4".toList .nil .nil)))

/-! ## Vocabulary of the claims about `parse_tokens` and `gen_c` -/

/-- The character is `+` or `-`. -/
def isAddSub (c : Char) : Bool := decide (c ∈ "+-".toList)

/-- A string cut at its `+` and `-` characters: the text before the first of
them, then each of them with the text that follows it up to the next one. -/
def splitOps : Str → Str × List (Char × Str)
  | [] => ([], [])
  | c :: s =>
    if isAddSub c then ([], (c, (splitOps s).1) :: (splitOps s).2)
    else (c :: (splitOps s).1, (splitOps s).2)

/-- The string that a cut comes from. -/
def joinOps (s : Str) (rest : List (Char × Str)) : Str :=
  s ++ (rest.map (fun p => p.1 :: p.2)).flatten

/-- No character of the string is `+` or `-`. -/
def noAddSub (s : Str) : Bool := s.all (fun c => !isAddSub c)

/-- The pieces of a cut are free of `+` and `-` and are separated by `+` or
`-`. -/
def validOps : List (Char × Str) → Bool
  | [] => true
  | (o, s) :: rest => isAddSub o && noAddSub s && validOps rest

/-- The token of the text between two operators: none when the text is
empty, else the text without its leading and trailing white space. -/
def segmentTokens (s : Str) : List Str :=
  if s = [] then [] else [TrimSpace s]

/-- The tokens of a cut string. -/
def tokensOf : Str → List (Char × Str) → List Str
  | s, [] => segmentTokens s
  | s, (o, s1) :: rest => segmentTokens s ++ [[o]] ++ tokensOf s1 rest

/-- The input with the white space at both ends of each text between
operators removed. -/
def trimOperands (code : Str) : Str :=
  TrimSpace (splitOps code).1 ++
    ((splitOps code).2.map (fun p => p.1 :: TrimSpace p.2)).flatten

/-- The string without its white space. -/
def removeSpace (s : Str) : Str := s.filter (fun c => !isSpace c)

/-! ## Vocabulary of the claims about `genValue` and `GenC` -/

/-- Number of nodes of a tree. -/
def ExprNode.size : ExprNode → Nat
  | .nil => 0
  | .node _ l r => 1 + l.size + r.size

/-- The token type is one of the four operator cases of the `switch`. -/
def isOperator (ty : TokenType) : Bool :=
  decide (ty = ADD ∨ ty = SUB ∨ ty = MUL ∨ ty = DIV)

/-- A non-empty string of decimal digits. -/
def isNumeral (s : Str) : Bool :=
  !s.isEmpty && s.all Char.isDigit

/-- The number a string of decimal digits denotes. -/
def numeralValue (s : Str) : Nat :=
  s.foldl (fun a c => 10 * a + (c.toNat - 48)) 0

/-- A well-formed expression tree: not nil, every `ADD`/`SUB`/`MUL`/`DIV` node
has two well-formed (so non-nil) children, every other node is a `NUMBER`
leaf whose `Val` is a decimal numeral. -/
def ExprNode.wellFormed : ExprNode → Bool
  | .nil => false
  | .node tok l r =>
    if isOperator tok.Typ then l.wellFormed && r.wellFormed
    else decide (tok.Typ = NUMBER) && decide (l = .nil) && decide (r = .nil) && isNumeral tok.Val

/-- The arithmetic value of a tree over the integers, `/` being truncating
division (`Int.tdiv`); a division by zero is given the value Lean gives it,
and `divByZeroFree` says that none occurs. -/
def ExprNode.value : ExprNode → Int
  | .nil => 0
  | .node tok l r =>
    if tok.Typ = ADD then l.value + r.value
    else if tok.Typ = SUB then l.value - r.value
    else if tok.Typ = MUL then l.value * r.value
    else if tok.Typ = DIV then (l.value).tdiv r.value
    else (numeralValue tok.Val : Int)

/-- No `DIV` node of the tree divides by zero. -/
def ExprNode.divByZeroFree : ExprNode → Bool
  | .nil => true
  | .node tok l r =>
    if isOperator tok.Typ then
      l.divByZeroFree && r.divByZeroFree && !(decide (tok.Typ = DIV) && decide (r.value = 0))
    else true

/-- The operator character of the format string that the `switch` of
`genValue` selects for a token type, if it selects an operator case. -/
def opChar (ty : TokenType) : Option Char :=
  if ty = ADD then some '+'
  else if ty = SUB then some '-'
  else if ty = MUL then some '*'
  else if ty = DIV then some '/'
  else none

/-- The lines that `genValue` writes for a tree when the counter is `n`. -/
def emitted (t : ExprNode) (n : Nat) : List Stmt :=
  (Compiler.genValue t (Compiler.mk n) []).2.2

/-! ## Running the generated lines over the integers -/

/-- The variables declared so far, the latest first. -/
abbrev Env := List (Str × Int)

/-- The value of an operand: a numeral denotes its number, anything else is
a variable and must have been declared. -/
def operand (env : Env) (s : Str) : Option Int :=
  if isNumeral s then some (numeralValue s : Int) else env.lookup s

/-- The value of `a <op> b`; dividing by zero has no value. -/
def applyOp (op : Char) (a b : Int) : Option Int :=
  if op = '+' then some (a + b)
  else if op = '-' then some (a - b)
  else if op = '*' then some (a * b)
  else if op = '/' then (if b = 0 then none else some (a.tdiv b))
  else none

/-- The declaration `int id = v;`: refused when `id` is declared already. -/
def declare (env : Env) (id : Str) (v : Int) : Option Env :=
  if (env.lookup id).isSome then none else some ((id, v) :: env)

/-- Runs lines in their textual order and gives the value of the operand of
the first `return`; `none` when a line cannot be executed or there is no
`return`. -/
def exec : List Stmt → Env → Option Int
  | [], _ => none
  | .header :: rest, env => exec rest env
  | .assign id v :: rest, env =>
    match operand env v with
    | none => none
    | some x =>
      match declare env id x with
      | none => none
      | some env1 => exec rest env1
  | .binop id a op b :: rest, env =>
    match operand env a, operand env b with
    | some x, some y =>
      match applyOp op x y with
      | none => none
      | some z =>
        match declare env id z with
        | none => none
        | some env1 => exec rest env1
    | _, _ => none
  | .ret id :: _, env => operand env id
  | .footer :: _, _ => none

/-- Runs a program from the empty environment. -/
def runProgram (prog : List Stmt) : Option Int := exec prog []

/-! ## Reading the lines of a program -/

/-- The variable a line declares, if it is a declaration. -/
def Stmt.declId : Stmt → Option Str
  | .assign id _ => some id
  | .binop id _ _ _ => some id
  | _ => none

/-- The temporaries on the right-hand side of a declaration: its operands
that are not numerals. -/
def Stmt.rhsTemps : Stmt → List Str
  | .assign _ val => [val].filter (fun s => !isNumeral s)
  | .binop _ lhs _ rhs => [lhs, rhs].filter (fun s => !isNumeral s)
  | _ => []

/-- The ids declared by the lines of a program, in the order of the lines. -/
def declaredIds (prog : List Stmt) : List Str :=
  prog.filterMap Stmt.declId

/-- Every temporary on a right-hand side is in `declared` or is declared by an
earlier line. -/
def definedBeforeUse : List Str → List Stmt → Bool
  | _, [] => true
  | declared, d :: rest =>
    d.rhsTemps.all (fun x => decide (x ∈ declared)) &&
      definedBeforeUse (declared ++ (d.declId).toList) rest

/-- The operand of the first `return` line. -/
def returned : List Stmt → Option Str
  | [] => none
  | .ret id :: _ => some id
  | _ :: rest => returned rest

/-- The number `n` of an id of the form `t<n>`. -/
def tmpIndex : Str → Option Nat
  | 't' :: ds => if isNumeral ds then some (numeralValue ds) else none
  | _ => none

/-! ## Reading a program text back into its lines -/

/-- The lines of a text, each ended by a newline; `none` when the text does
not end with a newline. -/
def splitLines : Str → Option (List Str)
  | [] => some []
  | c :: s =>
    if c = '\n' then (splitLines s).map (fun ls => [] :: ls)
    else
      match splitLines s with
      | some (l :: ls) => some ((c :: l) :: ls)
      | _ => none

/-- The words of a line, separated by single spaces. -/
def splitWords : Str → List Str
  | [] => [[]]
  | c :: s =>
    if c = ' ' then [] :: splitWords s
    else
      match splitWords s with
      | l :: ls => (c :: l) :: ls
      | [] => [[c]]

/-- The word without its final `;`. -/
def stripSemicolon (w : Str) : Option Str :=
  if w.getLast? = some ';' then some w.dropLast else none

/-- The line of a program read from its text (without the newline). -/
def parseStmt (line : Str) : Option Stmt :=
  match splitWords line with
  | [w] => if w = "\x7d".toList then some Stmt.footer else none
  | [w, x] =>
    if w = "\treturn".toList then (stripSemicolon x).map Stmt.ret else none
  | [w1, w2, w3] =>
    if w1 = "int".toList ∧ w2 = "main()".toList ∧ w3 = "\x7b".toList then some Stmt.header
    else none
  | [w, id, eq, v] =>
    if w = "\tint".toList ∧ eq = "=".toList then (stripSemicolon v).map (Stmt.assign id)
    else none
  | [w, id, eq, a, [op], b] =>
    if w = "\tint".toList ∧ eq = "=".toList then (stripSemicolon b).map (Stmt.binop id a op)
    else none
  | _ => none

/-- Reads each line of a list. -/
def parseStmts : List Str → Option (List Stmt)
  | [] => some []
  | l :: ls =>
    match parseStmt l, parseStmts ls with
    | some d, some ds => some (d :: ds)
    | _, _ => none

/-- The lines of a program text. -/
def parseProgram (text : Str) : Option (List Stmt) :=
  match splitLines text with
  | none => none
  | some ls => parseStmts ls

/-- A string without space and newline. -/
def isAtom (s : Str) : Bool := s.all (fun c => c != ' ' && c != '\n')

/-- The arguments of the line are without space and newline. -/
def Stmt.atomic : Stmt → Bool
  | .header => true
  | .assign id val => isAtom id && isAtom val
  | .binop id lhs op rhs => isAtom id && isAtom lhs && isAtom [op] && isAtom rhs
  | .ret id => isAtom id
  | .footer => true

/-- The text of a line without its newline. -/
def Stmt.line : Stmt → Str
  | .header => "int main() \x7b".toList
  | .assign id val => "\tint ".toList ++ id ++ " = ".toList ++ val ++ ";".toList
  | .binop id lhs op rhs =>
      "\tint ".toList ++ id ++ " = ".toList ++ lhs ++ [' ', op, ' '] ++ rhs ++ ";".toList
  | .ret id => "\treturn ".toList ++ id ++ ";".toList
  | .footer => "\x7d".toList

/-! ## Add/sub expressions -/

/-- An operand of an add/sub expression as it is written in the input: a
string of digits with white space before and after it. -/
structure Operand where
  before : Str
  digits : Str
  after : Str
deriving DecidableEq, Repr

/-- The text of an operand. -/
def Operand.text (n : Operand) : Str := n.before ++ n.digits ++ n.after

/-- The digits are a non-empty string of digits and what surrounds them is
white space. -/
def Operand.valid (n : Operand) : Bool :=
  n.before.all isSpace && isNumeral n.digits && n.after.all isSpace

/-- The two operators of the add/sub expressions. -/
inductive AddOp where
  | plus : AddOp
  | minus : AddOp
deriving DecidableEq, Repr

/-- The character of an operator. -/
def AddOp.char : AddOp → Char
  | .plus => '+'
  | .minus => '-'

/-- The input `n0 op1 n1 ... opk nk`. -/
def expression (n0 : Operand) (rest : List (AddOp × Operand)) : Str :=
  n0.text ++ (rest.map (fun p => p.1.char :: p.2.text)).flatten

/-- The left fold `((n0 op1 n1) op2 n2) ... opk nk` over the integers. -/
def leftFold (n0 : Operand) (rest : List (AddOp × Operand)) : Int :=
  rest.foldl
    (fun acc p =>
      match p.1 with
      | .plus => acc + (numeralValue p.2.digits : Int)
      | .minus => acc - (numeralValue p.2.digits : Int))
    (numeralValue n0.digits : Int)

/-- The tokens `op1, n1, ..., opk, nk`. -/
def operatorTokens (rest : List (AddOp × Operand)) : List Str :=
  (rest.map (fun p => [[p.1.char], p.2.digits])).flatten

/-- The lines `int t<i+1> = t<i> op n;` that `gen_c` writes for
`op1, n1, ..., opk, nk` when `idx` is `i` on entry. -/
def operatorLines : Nat → List (AddOp × Operand) → List Stmt
  | _, [] => []
  | idx, p :: rest =>
    Stmt.binop (tmp (idx + 1)) (tmp idx) p.1.char p.2.digits :: operatorLines (idx + 1) rest

/-! ## Running the generated lines as the C compiler reads them -/

/-- The least value of the C type `int` (32 bits, as `gcc` has it). -/
def intMin : Int := -2147483648

/-- The greatest value of the C type `int`. -/
def intMax : Int := 2147483647

/-- The value as an `int`, when it is in the range of `int`. -/
def fitsInt (v : Int) : Option Int :=
  if intMin ≤ v ∧ v ≤ intMax then some v else none

/-- One of the digits `0` to `7`. -/
def isOctalDigit (c : Char) : Bool := decide (48 ≤ c.toNat ∧ c.toNat ≤ 55)

/-- The number a string of octal digits denotes. -/
def octalValue (s : Str) : Nat :=
  s.foldl (fun a c => 8 * a + (c.toNat - 48)) 0

/-- The value of a string of digits as a C integer constant of type `int`: a
constant that begins with `0` is read in base eight and must have no digit
`8` or `9`, any other is read in base ten.  A constant outside the range of
`int` has no value here (C gives it a wider type, and its conversion to
`int` is implementation-defined). -/
def cConstant (s : Str) : Option Int :=
  if isNumeral s then
    if s.head? = some '0' then
      if s.all isOctalDigit then fitsInt (octalValue s : Int) else none
    else fitsInt (numeralValue s : Int)
  else none

/-- The value of an operand in C: a string of digits is an integer constant,
anything else is a variable and must have been declared. -/
def cOperand (env : Env) (s : Str) : Option Int :=
  if isNumeral s then cConstant s else env.lookup s

/-- The value of `a <op> b` on `int`; a result outside the range of `int`
(signed overflow) and a division by zero are undefined in C and have no
value. -/
def cApplyOp (op : Char) (a b : Int) : Option Int :=
  if op = '+' then fitsInt (a + b)
  else if op = '-' then fitsInt (a - b)
  else if op = '*' then fitsInt (a * b)
  else if op = '/' then (if b = 0 then none else fitsInt (a.tdiv b))
  else none

/-- Runs lines in their textual order as C does and gives the value of the
operand of the first `return`; `none` when a line is not valid C, has no
defined value, or there is no `return`. -/
def execC : List Stmt → Env → Option Int
  | [], _ => none
  | .header :: rest, env => execC rest env
  | .assign id v :: rest, env =>
    match cOperand env v with
    | none => none
    | some x =>
      match declare env id x with
      | none => none
      | some env1 => execC rest env1
  | .binop id a op b :: rest, env =>
    match cOperand env a, cOperand env b with
    | some x, some y =>
      match cApplyOp op x y with
      | none => none
      | some z =>
        match declare env id z with
        | none => none
        | some env1 => execC rest env1
    | _, _ => none
  | .ret id :: _, env => cOperand env id
  | .footer :: _, _ => none

/-- Runs a program as C from the empty environment. -/
def runProgramC (prog : List Stmt) : Option Int := execC prog []

/-- The operand is written correctly and its digits are a C integer constant
of type `int`. -/
def Operand.cValid (n : Operand) : Bool :=
  n.valid && (cConstant n.digits).isSome

/-- The value that C gives the digits of an operand. -/
def Operand.cValue (n : Operand) : Int := (cConstant n.digits).getD 0

/-- The digits do not begin with `0`, or are the single digit `0`. -/
def Operand.decimalForm (n : Operand) : Bool :=
  decide (n.digits.head? ≠ some '0' ∨ n.digits = ['0'])

/-- One step of the left fold on the values that C gives the operands. -/
def stepC (acc : Int) (p : AddOp × Operand) : Int :=
  match p.1 with
  | .plus => acc + p.2.cValue
  | .minus => acc - p.2.cValue

/-- The left fold `((n0 op1 n1) op2 n2) ... opk nk` on the values that C
gives the operands. -/
def leftFoldC (n0 : Operand) (rest : List (AddOp × Operand)) : Int :=
  rest.foldl stepC n0.cValue

/-- Every partial result of the left fold from `acc` on is in the range of
`int`. -/
def partialsFitInt : Int → List (AddOp × Operand) → Bool
  | _, [] => true
  | acc, p :: rest => (fitsInt (stepC acc p)).isSome && partialsFitInt (stepC acc p) rest

/-! ## Nodes of a tree, in pre-order and in post-order -/

/-- The place of a node in a tree: the turns from the root, `false` for
`Left` and `true` for `Right`. -/
abbrev Path := List Bool

/-- The subtree at a place (`nil` when the place is outside the tree). -/
def ExprNode.subtree : ExprNode → Path → ExprNode
  | t, [] => t
  | .nil, _ :: _ => .nil
  | .node _ l _, false :: q => l.subtree q
  | .node _ _ r, true :: q => r.subtree q

/-- The places of the nodes in pre-order: a node, then its left subtree, then
its right subtree. -/
def ExprNode.preOrder : ExprNode → List Path
  | .nil => []
  | .node _ l r => [] :: (l.preOrder.map (List.cons false) ++ r.preOrder.map (List.cons true))

/-- The places of the nodes in post-order: the left subtree of a node, then
its right subtree, then the node. -/
def ExprNode.postOrder : ExprNode → List Path
  | .nil => []
  | .node _ l r => l.postOrder.map (List.cons false) ++ r.postOrder.map (List.cons true) ++ [[]]

/-- The position of the first occurrence of a place in a list of places (the
length of the list when it does not occur). -/
def position (q : Path) : List Path → Nat
  | [] => 0
  | a :: rest => if a = q then 0 else position q rest + 1

/-- The id `t<n + j>` of the node at place `q`, where `j` is the position of
the node in pre-order. -/
def preOrderId (t : ExprNode) (n : Nat) (q : Path) : Str :=
  tmp (n + position q t.preOrder)

/-- The declaration of the node at place `q` when ids follow the pre-order:
an operator node declares its id as its left child's id, the operator, its
right child's id; any other node declares its id as its `Val`. -/
def declarationAt (t : ExprNode) (n : Nat) (q : Path) : Stmt :=
  match t.subtree q with
  | .nil => Stmt.footer
  | .node tok _ _ =>
    match opChar tok.Typ with
    | some c =>
      Stmt.binop (preOrderId t n q) (preOrderId t n (q ++ [false])) c (preOrderId t n (q ++ [true]))
    | none => Stmt.assign (preOrderId t n q) tok.Val

/-! ## The trees of 03-lex-parser and of 04-lex-parser-v2 -/

/-- The tree of 03-lex-parser of the same shape, the `Value` of a node being
the `Token.Val` of the node it comes from. -/
def toLexParser : ExprNode → LexParser.ExprNode
  | .nil => .nil
  | .node tok l r => .node tok.Val (toLexParser l) (toLexParser r)

/-- The token has type `ADD`, `SUB`, `MUL`, `DIV` exactly when its `Val` is
`+`, `-`, `*`, `/` respectively. -/
def typeMatchesVal (tok : Token) : Bool :=
  decide ((tok.Typ = ADD ↔ tok.Val = "+".toList) ∧ (tok.Typ = SUB ↔ tok.Val = "-".toList) ∧
    (tok.Typ = MUL ↔ tok.Val = "*".toList) ∧ (tok.Typ = DIV ↔ tok.Val = "/".toList))

/-- Every node of the tree has a token whose type matches its `Val`. -/
def ExprNode.typesMatchVals : ExprNode → Bool
  | .nil => true
  | .node tok l r => typeMatchesVal tok && l.typesMatchVals && r.typesMatchVals

/-- The operator character of the format string that the `switch` of
`genValue` of 03-lex-parser selects for a `Value`, if it selects an operator
case. -/
def valueOpChar (value : Str) : Option Char :=
  if value = "+".toList then some '+'
  else if value = "-".toList then some '-'
  else if value = "*".toList then some '*'
  else if value = "/".toList then some '/'
  else none

/-! ## Token lists of the form `n0, op1, n1, ..., opm, nm` -/

/-- The tokens `op1, n1, ..., opm, nm`, the operands being any strings. -/
def alternatingTokens (rest : List (AddOp × Str)) : List Str :=
  (rest.map (fun p => [[p.1.char], p.2])).flatten

/-- The declarations `t<i+1> = t<i> op n` for `op1, n1, ..., opm, nm`, from
`i = idx` on. -/
def chainLines : Nat → List (AddOp × Str) → List Stmt
  | _, [] => []
  | idx, p :: rest =>
    Stmt.binop (tmp (idx + 1)) (tmp idx) p.1.char p.2 :: chainLines (idx + 1) rest

/-- The token is `+` or `-`. -/
def isOperatorToken (t : Str) : Bool :=
  decide (t = "+".toList ∨ t = "-".toList)

/-- The last token of the list is `+` or `-`. -/
def endsWithOperatorToken (tokens : List Str) : Bool :=
  match tokens.getLast? with
  | some t => isOperatorToken t
  | none => false

/-- The last character of the string is `+` or `-`. -/
def endsWithAddSub (code : Str) : Bool :=
  match code.getLast? with
  | some c => isAddSub c
  | none => false

/-! # Theorems -/

/-! ## Decimal numerals -/

theorem digitChar_value (k : Nat) (h : k < 10) : (Nat.digitChar k).toNat - 48 = k := by
  interval_cases k <;> rfl

theorem numeralValue_toDigitsCore (fuel : Nat) : ∀ (n : Nat) (ds : Str), n < fuel →
    List.foldl (fun a c => 10 * a + (c.toNat - 48)) 0 (Nat.toDigitsCore 10 fuel n ds)
      = List.foldl (fun a c => 10 * a + (c.toNat - 48)) n ds := by
  induction fuel with
  | zero => intro n ds h; omega
  | succ fuel ih =>
    intro n ds h
    unfold Nat.toDigitsCore
    by_cases h0 : n / 10 = 0
    · simp only [h0, if_true, List.foldl_cons]
      rw [digitChar_value _ (Nat.mod_lt _ (by decide))]
      congr 1; omega
    · simp only [h0, if_false]
      rw [ih (n / 10) _ (by omega), List.foldl_cons,
        digitChar_value _ (Nat.mod_lt _ (by decide))]
      congr 1; omega

theorem numeralValue_toDigits (n : Nat) : numeralValue (Nat.toDigits 10 n) = n := by
  unfold numeralValue Nat.toDigits
  rw [numeralValue_toDigitsCore (n + 1) n [] (by omega)]
  rfl

theorem tmp_injective {i j : Nat} (h : tmp i = tmp j) : i = j := by
  unfold tmp at h
  have h1 : Nat.toDigits 10 i = Nat.toDigits 10 j := (List.cons.inj h).2
  rw [← numeralValue_toDigits i, ← numeralValue_toDigits j, h1]

theorem isNumeral_tmp (n : Nat) : isNumeral (tmp n) = false := by
  simp [isNumeral, tmp, Char.isDigit]

/-! ## The shape of what `genValue` writes -/

theorem opChar_eq_none_iff (ty : TokenType) : opChar ty = none ↔ isOperator ty = false := by
  unfold opChar isOperator
  split_ifs <;> simp [*]

theorem opChar_isSome_of_isOperator {ty : TokenType} (h : isOperator ty = true) :
    ∃ c, opChar ty = some c := by
  cases hc : opChar ty with
  | none => rw [(opChar_eq_none_iff ty).1 hc] at h; exact absurd h (by decide)
  | some c => exact ⟨c, rfl⟩

/-- The four operator cases of `genValue` are one case up to the operator
character. -/
theorem genValue_node (tok : Token) (l r : ExprNode) (p : Compiler) (w : List Stmt) :
    Compiler.genValue (.node tok l r) p w =
      match opChar tok.Typ with
      | some c =>
        ((p.genId).1,
         (Compiler.genValue r (Compiler.genValue l (p.genId).2 w).2.1
            (Compiler.genValue l (p.genId).2 w).2.2).2.1,
         (Compiler.genValue r (Compiler.genValue l (p.genId).2 w).2.1
            (Compiler.genValue l (p.genId).2 w).2.2).2.2 ++
           [Stmt.binop (p.genId).1 (Compiler.genValue l (p.genId).2 w).1 c
             (Compiler.genValue r (Compiler.genValue l (p.genId).2 w).2.1
                (Compiler.genValue l (p.genId).2 w).2.2).1])
      | none => ((p.genId).1, (p.genId).2, w ++ [Stmt.assign (p.genId).1 tok.Val]) := by
  unfold opChar
  rw [Compiler.genValue]
  split_ifs with h1 h2 h3 h4 <;> rfl

/-- What `genValue` writes is appended to the writer and does not depend on
what the writer holds. -/
theorem genValue_append (t : ExprNode) : ∀ (p : Compiler) (w : List Stmt),
    Compiler.genValue t p w =
      ((Compiler.genValue t p []).1, (Compiler.genValue t p []).2.1,
        w ++ (Compiler.genValue t p []).2.2) := by
  induction t with
  | nil => intro p w; simp [Compiler.genValue]
  | node tok l r ihl ihr =>
    intro p w
    rw [genValue_node, genValue_node tok l r p []]
    cases opChar tok.Typ with
    | none => simp
    | some c =>
      simp only
      rw [ihl (p.genId).2 w]
      simp only
      rw [ihr _ (w ++ _)]
      simp only
      rw [ihr _ (Compiler.genValue l (p.genId).2 []).2.2]
      simp

/-- On a well-formed tree `genValue` returns the id of the counter on entry,
advances the counter by the number of nodes and appends `emitted`. -/
theorem genValue_wellFormed (t : ExprNode) : ∀ (n : Nat) (w : List Stmt),
    t.wellFormed = true →
    Compiler.genValue t (Compiler.mk n) w = (tmp n, Compiler.mk (n + t.size), w ++ emitted t n) := by
  induction t with
  | nil => intro n w h; simp [ExprNode.wellFormed] at h
  | node tok l r ihl ihr =>
    intro n w h
    rw [genValue_append]
    unfold emitted
    rw [genValue_node]
    cases hc : opChar tok.Typ with
    | none => simp [Compiler.genId, ExprNode.size, (opChar_eq_none_iff _).1 hc, ExprNode.wellFormed] at h ⊢
              simp [h.1.1.2, h.1.2, ExprNode.size]
    | some c =>
      have hop : isOperator tok.Typ = true := by
        cases ho : isOperator tok.Typ with
        | true => rfl
        | false => rw [(opChar_eq_none_iff _).2 ho] at hc; exact absurd hc (by simp)
      simp only [ExprNode.wellFormed, hop, if_true, Bool.and_eq_true] at h
      simp only [Compiler.genId]
      rw [ihl (n + 1) [] h.1]
      simp only
      rw [ihr (n + 1 + l.size) _ h.2]
      simp [ExprNode.size]
      omega

/-- The lines of an operator node: those of the left subtree, those of the
right subtree, then the line of the node. -/
theorem emitted_operator (tok : Token) (l r : ExprNode) (n : Nat) (c : Char)
    (hc : opChar tok.Typ = some c) (hl : l.wellFormed = true) (hr : r.wellFormed = true) :
    emitted (.node tok l r) n =
      emitted l (n + 1) ++ emitted r (n + 1 + l.size) ++
        [Stmt.binop (tmp n) (tmp (n + 1)) c (tmp (n + 1 + l.size))] := by
  unfold emitted
  rw [genValue_node, hc]
  simp only [Compiler.genId]
  rw [genValue_wellFormed l (n + 1) [] hl]
  simp only
  rw [genValue_wellFormed r (n + 1 + l.size) _ hr]
  simp [emitted]

/-- The single line of a leaf. -/
theorem emitted_leaf (tok : Token) (l r : ExprNode) (n : Nat) (hc : opChar tok.Typ = none) :
    emitted (.node tok l r) n = [Stmt.assign (tmp n) tok.Val] := by
  unfold emitted
  rw [genValue_node, hc]
  simp [Compiler.genId]

theorem GenCBuf_wellFormed (t : ExprNode) (hwf : t.wellFormed = true) :
    (Compiler.new.GenCBuf t).1 =
      Stmt.header :: (emitted t 0 ++ [Stmt.ret (tmp 0), Stmt.footer]) := by
  unfold Compiler.GenCBuf Compiler.new
  simp only
  rw [genValue_wellFormed t 0 [Stmt.header] hwf]
  simp

/-! ## The text of a program determines its lines -/

theorem splitLines_append (l rest : Str) (h : ∀ c ∈ l, c ≠ '\n') :
    splitLines (l ++ '\n' :: rest) = (splitLines rest).map (fun ls => l :: ls) := by
  induction l with
  | nil => simp [splitLines]
  | cons c l ih =>
    have hc : c ≠ '\n' := h c (List.mem_cons_self _ _)
    rw [List.cons_append, splitLines, if_neg hc, ih (fun x hx => h x (List.mem_cons_of_mem _ hx))]
    cases splitLines rest <;> rfl

theorem splitWords_ne_nil (s : Str) : splitWords s ≠ [] := by
  cases s with
  | nil => simp [splitWords]
  | cons c s =>
    rw [splitWords]
    split_ifs
    · simp
    · cases splitWords s <;> simp

theorem splitWords_append (l rest : Str) (h : ∀ c ∈ l, c ≠ ' ') :
    splitWords (l ++ ' ' :: rest) = l :: splitWords rest := by
  induction l with
  | nil => simp [splitWords]
  | cons c l ih =>
    have hc : c ≠ ' ' := h c (List.mem_cons_self _ _)
    rw [List.cons_append, splitWords, if_neg hc, ih (fun x hx => h x (List.mem_cons_of_mem _ hx))]

theorem splitWords_atom (l : Str) (h : ∀ c ∈ l, c ≠ ' ') : splitWords l = [l] := by
  induction l with
  | nil => rfl
  | cons c l ih =>
    have hc : c ≠ ' ' := h c (List.mem_cons_self _ _)
    rw [splitWords, if_neg hc, ih (fun x hx => h x (List.mem_cons_of_mem _ hx))]

theorem stripSemicolon_append (v : Str) : stripSemicolon (v ++ [';']) = some v := by
  simp [stripSemicolon]

theorem no_space_of_isAtom {s : Str} (h : isAtom s = true) : ∀ c ∈ s, c ≠ ' ' := by
  intro c hc
  have := List.all_eq_true.1 h c hc
  simp only [Bool.and_eq_true, bne_iff_ne] at this
  exact this.1

theorem no_newline_of_isAtom {s : Str} (h : isAtom s = true) : ∀ c ∈ s, c ≠ '\n' := by
  intro c hc
  have := List.all_eq_true.1 h c hc
  simp only [Bool.and_eq_true, bne_iff_ne] at this
  exact this.2

theorem text_eq_line (d : Stmt) : d.text = d.line ++ ['\n'] := by
  cases d <;> simp [Stmt.text, Stmt.line]

theorem line_no_newline (d : Stmt) (h : d.atomic = true) : ∀ c ∈ d.line, c ≠ '\n' := by
  cases d with
  | header => decide
  | footer => decide
  | ret id =>
    simp only [Stmt.atomic] at h
    intro c hc
    simp only [Stmt.line, List.mem_append] at hc
    rcases hc with (hc | hc) | hc
    · revert c; decide
    · exact no_newline_of_isAtom h c hc
    · revert c; decide
  | assign id val =>
    simp only [Stmt.atomic, Bool.and_eq_true] at h
    intro c hc
    simp only [Stmt.line, List.mem_append] at hc
    rcases hc with (((hc | hc) | hc) | hc) | hc
    · revert c; decide
    · exact no_newline_of_isAtom h.1 c hc
    · revert c; decide
    · exact no_newline_of_isAtom h.2 c hc
    · revert c; decide
  | binop id lhs op rhs =>
    simp only [Stmt.atomic, Bool.and_eq_true] at h
    intro c hc
    simp only [Stmt.line, List.mem_append] at hc
    rcases hc with (((((hc | hc) | hc) | hc) | hc) | hc) | hc
    · revert c; decide
    · exact no_newline_of_isAtom h.1.1.1 c hc
    · revert c; decide
    · exact no_newline_of_isAtom h.1.1.2 c hc
    · simp only [List.mem_cons, List.mem_singleton, List.not_mem_nil, or_false] at hc
      rcases hc with rfl | rfl | rfl
      · decide
      · exact no_newline_of_isAtom h.1.2 c (List.mem_singleton_self _)
      · decide
    · exact no_newline_of_isAtom h.2 c hc
    · revert c; decide

theorem no_space_append_semicolon {v : Str} (h : isAtom v = true) :
    ∀ c ∈ v ++ ";".toList, c ≠ ' ' := by
  intro c hc
  rcases List.mem_append.1 hc with hc | hc
  · exact no_space_of_isAtom h c hc
  · have hsemi : c = ';' := by simpa using hc
    rw [hsemi]; decide

theorem parseStmt_line (d : Stmt) (h : d.atomic = true) : parseStmt d.line = some d := by
  have hint : ∀ c ∈ "\tint".toList, c ≠ ' ' := by decide
  have heq : ∀ c ∈ "=".toList, c ≠ ' ' := by decide
  have hret : ∀ c ∈ "\treturn".toList, c ≠ ' ' := by decide
  cases d with
  | header => decide
  | footer => decide
  | ret id =>
    simp only [Stmt.atomic] at h
    have hline : (Stmt.ret id).line = "\treturn".toList ++ ' ' :: (id ++ ";".toList) := by
      simp [Stmt.line]
    unfold parseStmt
    rw [hline, splitWords_append _ _ hret, splitWords_atom _ (no_space_append_semicolon h)]
    simp [stripSemicolon_append]
  | assign id val =>
    simp only [Stmt.atomic, Bool.and_eq_true] at h
    have hline : (Stmt.assign id val).line =
        "\tint".toList ++ ' ' :: (id ++ ' ' :: ("=".toList ++ ' ' :: (val ++ ";".toList))) := by
      simp [Stmt.line]
    unfold parseStmt
    rw [hline, splitWords_append _ _ hint, splitWords_append _ _ (no_space_of_isAtom h.1),
      splitWords_append _ _ heq, splitWords_atom _ (no_space_append_semicolon h.2)]
    simp [stripSemicolon_append]
  | binop id lhs op rhs =>
    simp only [Stmt.atomic, Bool.and_eq_true] at h
    have hline : (Stmt.binop id lhs op rhs).line =
        "\tint".toList ++ ' ' :: (id ++ ' ' :: ("=".toList ++ ' ' ::
          (lhs ++ ' ' :: ([op] ++ ' ' :: (rhs ++ ";".toList))))) := by
      simp [Stmt.line]
    unfold parseStmt
    rw [hline, splitWords_append _ _ hint, splitWords_append _ _ (no_space_of_isAtom h.1.1.1),
      splitWords_append _ _ heq, splitWords_append _ _ (no_space_of_isAtom h.1.1.2),
      splitWords_append _ _ (no_space_of_isAtom h.1.2),
      splitWords_atom _ (no_space_append_semicolon h.2)]
    simp [stripSemicolon_append]

/-- The text of a program whose arguments are atoms determines its lines. -/
theorem parseProgram_bufString (prog : List Stmt) (h : ∀ d ∈ prog, d.atomic = true) :
    parseProgram (bufString prog) = some prog := by
  have hsplit : ∀ (l : List Stmt), (∀ d ∈ l, d.atomic = true) →
      splitLines (bufString l) = some (l.map Stmt.line) := by
    intro l
    induction l with
    | nil => intro _; rfl
    | cons d l ih =>
      intro hl
      have hd := hl d (List.mem_cons_self _ _)
      have htext : bufString (d :: l) = d.line ++ '\n' :: bufString l := by
        simp [bufString, text_eq_line]
      rw [htext, splitLines_append _ _ (line_no_newline d hd),
        ih (fun x hx => hl x (List.mem_cons_of_mem _ hx))]
      rfl
  have hparse : ∀ (l : List Stmt), (∀ d ∈ l, d.atomic = true) →
      parseStmts (l.map Stmt.line) = some l := by
    intro l
    induction l with
    | nil => intro _; rfl
    | cons d l ih =>
      intro hl
      rw [List.map_cons, parseStmts, parseStmt_line d (hl d (List.mem_cons_self _ _)),
        ih (fun x hx => hl x (List.mem_cons_of_mem _ hx))]
  unfold parseProgram
  rw [hsplit prog h]
  exact hparse prog h

theorem isDigit_digitChar (k : Nat) (h : k < 10) : (Nat.digitChar k).isDigit = true := by
  interval_cases k <;> rfl

theorem isDigit_toDigitsCore (fuel : Nat) : ∀ (n : Nat) (ds : Str),
    (∀ c ∈ ds, c.isDigit = true) → ∀ c ∈ Nat.toDigitsCore 10 fuel n ds, c.isDigit = true := by
  induction fuel with
  | zero => intro n ds h; simpa [Nat.toDigitsCore] using h
  | succ fuel ih =>
    intro n ds h
    have hcons : ∀ c ∈ Nat.digitChar (n % 10) :: ds, c.isDigit = true := by
      intro c hc
      rcases List.mem_cons.1 hc with rfl | hc
      · exact isDigit_digitChar _ (Nat.mod_lt _ (by decide))
      · exact h c hc
    unfold Nat.toDigitsCore
    by_cases h0 : n / 10 = 0
    · simpa only [h0, if_true] using hcons
    · simp only [h0, if_false]
      exact ih _ _ hcons

theorem isAtom_of_digits (s : Str) (h : ∀ c ∈ s, c.isDigit = true) : isAtom s = true := by
  unfold isAtom
  rw [List.all_eq_true]
  intro c hc
  have hd := h c hc
  simp only [Bool.and_eq_true, bne_iff_ne]
  constructor <;> rintro rfl <;> exact absurd hd (by decide)

theorem isAtom_tmp (n : Nat) : isAtom (tmp n) = true := by
  have hd : isAtom (Nat.toDigits 10 n) = true :=
    isAtom_of_digits _ (isDigit_toDigitsCore _ n [] (fun c hc => absurd hc (List.not_mem_nil _)))
  unfold isAtom at hd ⊢
  unfold tmp
  rw [List.all_cons, hd]
  decide

theorem isAtom_of_isNumeral (s : Str) (h : isNumeral s = true) : isAtom s = true := by
  simp only [isNumeral, Bool.and_eq_true, List.all_eq_true] at h
  exact isAtom_of_digits s h.2

theorem isAtom_opChar {ty : TokenType} {c : Char} (h : opChar ty = some c) :
    isAtom [c] = true := by
  unfold opChar at h
  split_ifs at h <;> cases h <;> decide

/-- The arguments of the lines of a well-formed tree are without space and
newline. -/
theorem atomic_emitted (t : ExprNode) : ∀ (n : Nat), t.wellFormed = true →
    ∀ d ∈ emitted t n, d.atomic = true := by
  induction t with
  | nil => intro n h; simp [ExprNode.wellFormed] at h
  | node tok l r ihl ihr =>
    intro n hwf d hd
    cases hc : opChar tok.Typ with
    | none =>
      have hop := (opChar_eq_none_iff _).1 hc
      simp [ExprNode.wellFormed, hop] at hwf
      rw [emitted_leaf tok l r n hc, List.mem_singleton] at hd
      rw [hd]
      simp [Stmt.atomic, isAtom_tmp, isAtom_of_isNumeral _ hwf.2]
    | some c =>
      have hop : isOperator tok.Typ = true := by
        cases ho : isOperator tok.Typ with
        | true => rfl
        | false => rw [(opChar_eq_none_iff _).2 ho] at hc; exact absurd hc (by simp)
      simp only [ExprNode.wellFormed, hop, if_true, Bool.and_eq_true] at hwf
      rw [emitted_operator tok l r n c hc hwf.1 hwf.2, List.mem_append, List.mem_append,
        List.mem_singleton] at hd
      rcases hd with (hd | hd) | hd
      · exact ihl _ hwf.1 d hd
      · exact ihr _ hwf.2 d hd
      · rw [hd]
        simp [Stmt.atomic, isAtom_tmp, isAtom_opChar hc]

/-- The text that `GenC` returns for a well-formed tree reads back as the
lines that were written. -/
theorem parseProgram_GenC (t : ExprNode) (hwf : t.wellFormed = true) :
    parseProgram (Compiler.new.GenC t) = some (Compiler.new.GenCBuf t).1 := by
  unfold Compiler.GenC
  apply parseProgram_bufString
  rw [GenCBuf_wellFormed t hwf]
  intro d hd
  simp only [List.mem_cons, List.mem_append, List.mem_singleton, List.not_mem_nil, or_false] at hd
  rcases hd with rfl | hd | rfl | rfl
  · rfl
  · exact atomic_emitted t 0 hwf d hd
  · exact isAtom_tmp 0
  · rfl

/-! ## Running what `genValue` writes -/

theorem size_pos_of_wellFormed (t : ExprNode) (h : t.wellFormed = true) : 0 < t.size := by
  cases t with
  | nil => simp [ExprNode.wellFormed] at h
  | node tok l r => simp [ExprNode.size]

theorem lookup_declared (env : Env) (x y : Str) (v : Int) :
    List.lookup x ((y, v) :: env) = if x = y then some v else List.lookup x env := by
  by_cases h : x = y
  · simp [List.lookup, h]
  · have : (x == y) = false := by simpa using h
    simp [List.lookup, h, this]

theorem applyOp_value (tok : Token) (l r : ExprNode) (c : Char)
    (hc : opChar tok.Typ = some c) (hz : ¬ (tok.Typ = DIV ∧ r.value = 0)) :
    applyOp c l.value r.value = some (ExprNode.node tok l r).value := by
  unfold opChar at hc
  split_ifs at hc with h1 h2 h3 h4
  · cases hc; simp only [ExprNode.value, if_pos h1]; simp [applyOp]
  · cases hc; simp only [ExprNode.value, if_neg h1, if_pos h2]; simp [applyOp]
  · cases hc; simp only [ExprNode.value, if_neg h1, if_neg h2, if_pos h3]; simp [applyOp]
  · cases hc
    have hr : r.value ≠ 0 := fun h => hz ⟨h4, h⟩
    simp only [ExprNode.value, if_neg h1, if_neg h2, if_neg h3, if_pos h4]
    simp [applyOp, hr]

theorem value_leaf (tok : Token) (l r : ExprNode) (hc : opChar tok.Typ = none) :
    (ExprNode.node tok l r).value = (numeralValue tok.Val : Int) := by
  unfold opChar at hc
  split_ifs at hc with h1 h2 h3 h4
  simp only [ExprNode.value, if_neg h1, if_neg h2, if_neg h3, if_neg h4]

/-- Running the lines of a well-formed tree in an environment that declares
none of its ids declares exactly these ids, leaves every other variable as it
was, and gives the id of the root the value of the tree. -/
theorem exec_emitted (t : ExprNode) : ∀ (n : Nat) (env : Env) (rest : List Stmt),
    t.wellFormed = true → t.divByZeroFree = true →
    (∀ j, n ≤ j → j < n + t.size → List.lookup (tmp j) env = none) →
    ∃ env1 : Env, exec (emitted t n ++ rest) env = exec rest env1 ∧
      List.lookup (tmp n) env1 = some t.value ∧
      ∀ x, (∀ j, n ≤ j → j < n + t.size → x ≠ tmp j) → List.lookup x env1 = List.lookup x env := by
  induction t with
  | nil => intro n env rest h; simp [ExprNode.wellFormed] at h
  | node tok l r ihl ihr =>
    intro n env rest hwf hdz hfresh
    have hsize : (ExprNode.node tok l r).size = 1 + l.size + r.size := rfl
    rw [hsize] at hfresh
    cases hc : opChar tok.Typ with
    | none =>
      have hop := (opChar_eq_none_iff _).1 hc
      simp [ExprNode.wellFormed, hop] at hwf
      have hnum : isNumeral tok.Val = true := hwf.2
      have hn : List.lookup (tmp n) env = none := hfresh n (le_refl _) (by omega)
      refine ⟨(tmp n, (numeralValue tok.Val : Int)) :: env, ?_, ?_, ?_⟩
      · rw [emitted_leaf tok l r n hc]
        simp [exec, operand, hnum, declare, hn]
      · rw [lookup_declared, value_leaf tok l r hc]; simp
      · intro x hx
        rw [lookup_declared, if_neg (hx n (le_refl _) (by rw [hsize]; omega))]
    | some c =>
      have hop : isOperator tok.Typ = true := by
        cases ho : isOperator tok.Typ with
        | true => rfl
        | false => rw [(opChar_eq_none_iff _).2 ho] at hc; exact absurd hc (by simp)
      simp only [ExprNode.wellFormed, hop, if_true, Bool.and_eq_true] at hwf
      simp only [ExprNode.divByZeroFree, hop, if_true, Bool.and_eq_true, Bool.not_eq_true',
        Bool.and_eq_false_iff, decide_eq_false_iff_not] at hdz
      have hlpos := size_pos_of_wellFormed l hwf.1
      obtain ⟨env1, he1, hv1, hf1⟩ := ihl (n + 1) env
        (emitted r (n + 1 + l.size) ++
          ([Stmt.binop (tmp n) (tmp (n + 1)) c (tmp (n + 1 + l.size))] ++ rest))
        hwf.1 hdz.1.1 (fun j h1 h2 => hfresh j (by omega) (by omega))
      obtain ⟨env2, he2, hv2, hf2⟩ := ihr (n + 1 + l.size) env1
        ([Stmt.binop (tmp n) (tmp (n + 1)) c (tmp (n + 1 + l.size))] ++ rest)
        hwf.2 hdz.1.2 (fun j h1 h2 => by
          rw [hf1 (tmp j) (fun i hi1 hi2 hij => by have := tmp_injective hij; omega)]
          exact hfresh j (by omega) (by omega))
      have hl2 : List.lookup (tmp (n + 1)) env2 = some l.value := by
        rw [hf2 (tmp (n + 1)) (fun i hi1 hi2 hij => by have := tmp_injective hij; omega)]
        exact hv1
      have hn2 : List.lookup (tmp n) env2 = none := by
        rw [hf2 (tmp n) (fun i hi1 hi2 hij => by have := tmp_injective hij; omega),
          hf1 (tmp n) (fun i hi1 hi2 hij => by have := tmp_injective hij; omega)]
        exact hfresh n (le_refl _) (by omega)
      have hz : ¬ (tok.Typ = DIV ∧ r.value = 0) := by
        rintro ⟨h1, h2⟩
        rcases hdz.2 with h | h
        · exact h h1
        · exact h h2
      refine ⟨(tmp n, (ExprNode.node tok l r).value) :: env2, ?_, ?_, ?_⟩
      · rw [emitted_operator tok l r n c hc hwf.1 hwf.2, List.append_assoc, List.append_assoc,
          he1, he2]
        simp [exec, operand, isNumeral_tmp, hl2, hv2, applyOp_value tok l r c hc hz, declare, hn2]
      · rw [lookup_declared]; simp
      · intro x hx
        rw [lookup_declared, if_neg (hx n (le_refl _) (by rw [hsize]; omega)),
          hf2 x (fun i hi1 hi2 => hx i (by omega) (by rw [hsize]; omega)),
          hf1 x (fun i hi1 hi2 => hx i (by omega) (by rw [hsize]; omega))]

/-- C1. Compiler correctness of `Compiler.GenC` (04-lex-parser-v2): for every
well-formed expression tree in which no division by zero occurs, running the
lines of the text that `GenC` returns on a fresh `Compiler`, in their textual
order over the integers with truncating division, and reading the temporary
named in the `return` line gives the arithmetic value of the tree. -/
theorem GenC_correct (t : ExprNode) (hwf : t.wellFormed = true)
    (hdz : t.divByZeroFree = true) :
    (parseProgram (Compiler.new.GenC t)).bind runProgram = some t.value := by
  rw [parseProgram_GenC t hwf, Option.some_bind]
  unfold runProgram Compiler.GenCBuf Compiler.new
  simp only
  rw [genValue_wellFormed t 0 [Stmt.header] hwf]
  obtain ⟨env1, he, hv, _⟩ := exec_emitted t 0 [] [Stmt.ret (tmp 0), Stmt.footer] hwf hdz
    (fun j _ _ => rfl)
  have hprog : [Stmt.header] ++ emitted t 0 ++ [Stmt.ret (tmp 0)] ++ [Stmt.footer] =
      Stmt.header :: (emitted t 0 ++ [Stmt.ret (tmp 0), Stmt.footer]) := by simp
  rw [hprog, exec, he]
  simp [exec, operand, isNumeral_tmp, hv]

/-- Witness of C1 on the trees of `2*(3+4)`, `10/3`, `42` and `1+2*(3+4)`:
the generated programs compute 14, 3, 42 and 15. -/
theorem GenC_correct_witness :
    (tree_2_mul_3_add_4.wellFormed = true ∧ tree_2_mul_3_add_4.divByZeroFree = true ∧
      (parseProgram (Compiler.new.GenC tree_2_mul_3_add_4)).bind runProgram =
        some tree_2_mul_3_add_4.value ∧
      tree_2_mul_3_add_4.value = 14) ∧
    ((parseProgram (Compiler.new.GenC tree_10_div_3)).bind runProgram =
        some tree_10_div_3.value ∧
      tree_10_div_3.value = 3) ∧
    ((parseProgram (Compiler.new.GenC (num "42"))).bind runProgram = some (num "42").value ∧
      (num "42").value = 42) ∧
    ((parseProgram (Compiler.new.GenC tree_1_add_2_mul_3_add_4)).bind runProgram =
        some tree_1_add_2_mul_3_add_4.value ∧
      tree_1_add_2_mul_3_add_4.value = 15) :=
  ⟨⟨by decide, by decide, GenC_correct tree_2_mul_3_add_4 (by decide) (by decide), by decide⟩,
   ⟨GenC_correct tree_10_div_3 (by decide) (by decide), by decide⟩,
   ⟨GenC_correct (num "42") (by decide) (by decide), by decide⟩,
   ⟨GenC_correct tree_1_add_2_mul_3_add_4 (by decide) (by decide), by decide⟩⟩

/-! ## The ids that `genValue` declares -/

theorem declaredIds_append (a b : List Stmt) :
    declaredIds (a ++ b) = declaredIds a ++ declaredIds b := by
  simp [declaredIds]

/-- The lines of a well-formed tree declare the ids of the counter values
`n, ..., n + size - 1`, each once. -/
theorem declaredIds_emitted (t : ExprNode) : ∀ (n : Nat), t.wellFormed = true →
    (declaredIds (emitted t n)).Perm ((List.range' n t.size).map tmp) := by
  induction t with
  | nil => intro n h; simp [ExprNode.wellFormed] at h
  | node tok l r ihl ihr =>
    intro n hwf
    have hsize : (ExprNode.node tok l r).size = 1 + l.size + r.size := rfl
    cases hc : opChar tok.Typ with
    | none =>
      have hop := (opChar_eq_none_iff _).1 hc
      simp [ExprNode.wellFormed, hop] at hwf
      rw [emitted_leaf tok l r n hc, hsize, hwf.1.1.2, hwf.1.2]
      simp [declaredIds, Stmt.declId, ExprNode.size]
    | some c =>
      have hop : isOperator tok.Typ = true := by
        cases ho : isOperator tok.Typ with
        | true => rfl
        | false => rw [(opChar_eq_none_iff _).2 ho] at hc; exact absurd hc (by simp)
      simp only [ExprNode.wellFormed, hop, if_true, Bool.and_eq_true] at hwf
      rw [emitted_operator tok l r n c hc hwf.1 hwf.2, declaredIds_append, declaredIds_append]
      have hr : List.range' n (ExprNode.node tok l r).size =
          n :: (List.range' (n + 1) l.size ++ List.range' (n + 1 + l.size) r.size) := by
        rw [hsize, List.range'_append_1, show 1 + l.size + r.size = (l.size + r.size) + 1 by omega,
          List.range'_succ, Nat.add_comm r.size]
      rw [hr, List.map_cons, List.map_append]
      have h1 : declaredIds [Stmt.binop (tmp n) (tmp (n + 1)) c (tmp (n + 1 + l.size))] = [tmp n] := rfl
      rw [h1]
      exact (List.perm_append_singleton _ _).trans
        (List.Perm.cons _ ((ihl (n + 1) hwf.1).append (ihr (n + 1 + l.size) hwf.2)))

theorem declaredIds_cons (d : Stmt) (a : List Stmt) :
    declaredIds (d :: a) = (d.declId).toList ++ declaredIds a := by
  cases h : d.declId <;> simp [declaredIds, List.filterMap_cons, h]

theorem definedBeforeUse_append (a : List Stmt) : ∀ (D : List Str) (b : List Stmt),
    definedBeforeUse D (a ++ b) =
      (definedBeforeUse D a && definedBeforeUse (D ++ declaredIds a) b) := by
  induction a with
  | nil => intro D b; simp [definedBeforeUse, declaredIds]
  | cons d a ih =>
    intro D b
    rw [List.cons_append, definedBeforeUse, definedBeforeUse, ih, declaredIds_cons,
      List.append_assoc, Bool.and_assoc]

theorem definedBeforeUse_mono (l : List Stmt) : ∀ (D E : List Str), (∀ x ∈ D, x ∈ E) →
    definedBeforeUse D l = true → definedBeforeUse E l = true := by
  induction l with
  | nil => intro D E _ _; rfl
  | cons d l ih =>
    intro D E hDE h
    simp only [definedBeforeUse, Bool.and_eq_true, List.all_eq_true, decide_eq_true_eq] at h ⊢
    refine ⟨fun x hx => hDE x (h.1 x hx), ih _ _ ?_ h.2⟩
    intro x hx
    rcases List.mem_append.1 hx with hx | hx
    · exact List.mem_append_left _ (hDE x hx)
    · exact List.mem_append_right _ hx

theorem definedBeforeUse_sound (pre : List Stmt) : ∀ (D : List Str) (d : Stmt) (post : List Stmt),
    definedBeforeUse D (pre ++ d :: post) = true →
    ∀ x ∈ d.rhsTemps, x ∈ D ∨ x ∈ declaredIds pre := by
  induction pre with
  | nil =>
    intro D d post h x hx
    simp only [List.nil_append, definedBeforeUse, Bool.and_eq_true, List.all_eq_true,
      decide_eq_true_eq] at h
    exact Or.inl (h.1 x hx)
  | cons e pre ih =>
    intro D d post h x hx
    simp only [List.cons_append, definedBeforeUse, Bool.and_eq_true] at h
    rw [declaredIds_cons]
    rcases ih _ d post h.2 x hx with h1 | h1
    · rcases List.mem_append.1 h1 with h2 | h2
      · exact Or.inl h2
      · exact Or.inr (List.mem_append_left _ h2)
    · exact Or.inr (List.mem_append_right _ h1)

/-- In the lines of a well-formed tree every temporary of a right-hand side
is declared by an earlier line of the same tree. -/
theorem definedBeforeUse_emitted (t : ExprNode) : ∀ (n : Nat) (D : List Str),
    t.wellFormed = true → definedBeforeUse D (emitted t n) = true := by
  induction t with
  | nil => intro n D h; simp [ExprNode.wellFormed] at h
  | node tok l r ihl ihr =>
    intro n D hwf
    cases hc : opChar tok.Typ with
    | none =>
      have hop := (opChar_eq_none_iff _).1 hc
      simp [ExprNode.wellFormed, hop] at hwf
      rw [emitted_leaf tok l r n hc]
      simp [definedBeforeUse, Stmt.rhsTemps, hwf.2]
    | some c =>
      have hop : isOperator tok.Typ = true := by
        cases ho : isOperator tok.Typ with
        | true => rfl
        | false => rw [(opChar_eq_none_iff _).2 ho] at hc; exact absurd hc (by simp)
      simp only [ExprNode.wellFormed, hop, if_true, Bool.and_eq_true] at hwf
      have hl : tmp (n + 1) ∈ declaredIds (emitted l (n + 1)) := by
        rw [(declaredIds_emitted l (n + 1) hwf.1).mem_iff]
        exact List.mem_map_of_mem _ (List.mem_range'_1.2 ⟨le_refl _, by
          have := size_pos_of_wellFormed l hwf.1; omega⟩)
      have hr : tmp (n + 1 + l.size) ∈ declaredIds (emitted r (n + 1 + l.size)) := by
        rw [(declaredIds_emitted r (n + 1 + l.size) hwf.2).mem_iff]
        exact List.mem_map_of_mem _ (List.mem_range'_1.2 ⟨le_refl _, by
          have := size_pos_of_wellFormed r hwf.2; omega⟩)
      rw [emitted_operator tok l r n c hc hwf.1 hwf.2, definedBeforeUse_append,
        definedBeforeUse_append, ihl (n + 1) D hwf.1, ihr (n + 1 + l.size) _ hwf.2]
      simp [definedBeforeUse, Stmt.rhsTemps, isNumeral_tmp, declaredIds_append, hl, hr]

theorem declaredIds_GenCBuf (t : ExprNode) (hwf : t.wellFormed = true) :
    declaredIds (Compiler.new.GenCBuf t).1 = declaredIds (emitted t 0) := by
  rw [GenCBuf_wellFormed t hwf, declaredIds_cons, declaredIds_append]
  simp [declaredIds, Stmt.declId]

theorem tmp_nodup (l : List Nat) (h : l.Nodup) : (l.map tmp).Nodup :=
  List.Nodup.map (fun _ _ h => tmp_injective h) h

/-- C2. For every well-formed expression tree with `k` nodes, the text that
`GenC` returns on a fresh `Compiler` reads back as the lines written, which
hold exactly `k` declarations; the declared ids are exactly `t0, ..., t(k-1)`
with none declared twice, and every temporary on the right-hand side of a
declaration is declared by an earlier line. -/
theorem GenC_declares_each_temporary_once (t : ExprNode) (hwf : t.wellFormed = true) :
    parseProgram (Compiler.new.GenC t) = some (Compiler.new.GenCBuf t).1 ∧
    (declaredIds (Compiler.new.GenCBuf t).1).length = t.size ∧
    (declaredIds (Compiler.new.GenCBuf t).1).Perm ((List.range t.size).map tmp) ∧
    (declaredIds (Compiler.new.GenCBuf t).1).Nodup ∧
    ∀ (pre : List Stmt) (d : Stmt) (post : List Stmt),
      (Compiler.new.GenCBuf t).1 = pre ++ d :: post →
      ∀ x ∈ d.rhsTemps, x ∈ declaredIds pre := by
  have hperm : (declaredIds (Compiler.new.GenCBuf t).1).Perm ((List.range t.size).map tmp) := by
    rw [declaredIds_GenCBuf t hwf, List.range_eq_range']
    exact declaredIds_emitted t 0 hwf
  refine ⟨parseProgram_GenC t hwf, ?_, hperm, ?_, ?_⟩
  · rw [hperm.length_eq]; simp
  · exact (hperm.nodup_iff).2 (tmp_nodup _ (List.nodup_range _))
  · intro pre d post hprog x hx
    have hdbu : definedBeforeUse [] (Compiler.new.GenCBuf t).1 = true := by
      rw [GenCBuf_wellFormed t hwf]
      simp [definedBeforeUse, Stmt.rhsTemps, Stmt.declId, definedBeforeUse_append,
        definedBeforeUse_emitted t 0 [] hwf]
    rw [hprog] at hdbu
    rcases definedBeforeUse_sound pre [] d post hdbu x hx with h | h
    · exact absurd h (List.not_mem_nil _)
    · exact h

/-- Witness of C2 on the tree of `1+2*(3+4)`, which has seven nodes. -/
theorem GenC_declares_each_temporary_once_witness :
    tree_1_add_2_mul_3_add_4.wellFormed = true ∧ tree_1_add_2_mul_3_add_4.size = 7 ∧
    (declaredIds (Compiler.new.GenCBuf tree_1_add_2_mul_3_add_4).1).length = 7 :=
  ⟨by decide, by decide,
    (GenC_declares_each_temporary_once tree_1_add_2_mul_3_add_4 (by decide)).2.1⟩

/-! ## `token.go`: precedences -/

/-- C5. `Precedence` is 1 for `ADD` and `SUB`, 2 for `MUL` and `DIV`, 0 for
every other token type, the values outside `EOF..RPAREN` included; so it is
positive exactly on the four binary operators, and `MUL`/`DIV` rank
strictly above `ADD`/`SUB`. -/
theorem Precedence_table (op : TokenType) :
    Precedence ADD = 1 ∧ Precedence SUB = 1 ∧ Precedence MUL = 2 ∧ Precedence DIV = 2 ∧
    Precedence EOF = 0 ∧ Precedence ILLEGAL = 0 ∧ Precedence NUMBER = 0 ∧
    Precedence LPAREN = 0 ∧ Precedence RPAREN = 0 ∧
    (op ≠ ADD → op ≠ SUB → op ≠ MUL → op ≠ DIV → Precedence op = 0) ∧
    (0 < Precedence op ↔ (op = ADD ∨ op = SUB ∨ op = MUL ∨ op = DIV)) ∧
    Precedence ADD < Precedence MUL ∧ Precedence ADD < Precedence DIV ∧
    Precedence SUB < Precedence MUL ∧ Precedence SUB < Precedence DIV := by
  refine ⟨by decide, by decide, by decide, by decide, by decide, by decide, by decide,
    by decide, by decide, ?_, ?_, by decide, by decide, by decide, by decide⟩
  · intro h1 h2 h3 h4
    simp [Precedence, h1, h2, h3, h4]
  · unfold Precedence
    by_cases h12 : op = ADD ∨ op = SUB
    · rw [if_pos h12]
      exact ⟨fun _ => by tauto, fun _ => by decide⟩
    · rw [if_neg h12]
      by_cases h34 : op = MUL ∨ op = DIV
      · rw [if_pos h34]
        exact ⟨fun _ => by tauto, fun _ => by decide⟩
      · rw [if_neg h34]
        exact ⟨fun h => absurd h (by decide), fun h => by tauto⟩

/-- Witness of C5 on an out-of-range token type. -/
theorem Precedence_table_witness :
    (-7 : TokenType) ≠ ADD ∧ (-7 : TokenType) ≠ SUB ∧ (-7 : TokenType) ≠ MUL ∧
    (-7 : TokenType) ≠ DIV ∧ Precedence (-7) = 0 :=
  ⟨by decide, by decide, by decide, by decide,
    (Precedence_table (-7)).2.2.2.2.2.2.2.2.2.1 (by decide) (by decide) (by decide) (by decide)⟩

/-! ## Post-order output, pre-order ids -/

theorem position_map_cons (b : Bool) (q : Path) (A : List Path) :
    position (b :: q) (A.map (List.cons b)) = position q A := by
  induction A with
  | nil => rfl
  | cons a A ih =>
    by_cases h : a = q
    · simp [position, h]
    · simp [position, h, ih]

theorem position_append_of_mem (q : Path) (A B : List Path) (h : q ∈ A) :
    position q (A ++ B) = position q A := by
  induction A with
  | nil => simp at h
  | cons a A ih =>
    by_cases ha : a = q
    · simp [position, ha]
    · have hq : q ∈ A := by
        rcases List.mem_cons.1 h with h1 | h1
        · exact absurd h1.symm ha
        · exact h1
      simp [position, ha, ih hq]

theorem position_append_of_not_mem (q : Path) (A B : List Path) (h : q ∉ A) :
    position q (A ++ B) = A.length + position q B := by
  induction A with
  | nil => simp
  | cons a A ih =>
    have ha : a ≠ q := fun hc => h (by simp [hc])
    have hq : q ∉ A := fun hc => h (List.mem_cons_of_mem _ hc)
    simp [position, ha, ih hq]
    omega

theorem length_preOrder (t : ExprNode) : t.preOrder.length = t.size := by
  induction t with
  | nil => rfl
  | node tok l r ihl ihr => simp [ExprNode.preOrder, ExprNode.size, ihl, ihr]; omega

theorem subtree_nil (q : Path) : ExprNode.nil.subtree q = .nil := by
  cases q <;> rfl

theorem mem_preOrder_iff (t : ExprNode) : ∀ q : Path, q ∈ t.preOrder ↔ t.subtree q ≠ .nil := by
  induction t with
  | nil => intro q; simp [ExprNode.preOrder, subtree_nil]
  | node tok l r ihl ihr =>
    intro q
    cases q with
    | nil => simp [ExprNode.preOrder, ExprNode.subtree]
    | cons b q =>
      cases b with
      | false => simp [ExprNode.preOrder, ExprNode.subtree, ihl q]
      | true => simp [ExprNode.preOrder, ExprNode.subtree, ihr q]

theorem mem_preOrder_of_mem_postOrder (t : ExprNode) :
    ∀ q : Path, q ∈ t.postOrder → q ∈ t.preOrder := by
  induction t with
  | nil => intro q h; simp [ExprNode.postOrder] at h
  | node tok l r ihl ihr =>
    intro q h
    simp only [ExprNode.postOrder, List.mem_append, List.mem_map, List.mem_singleton] at h
    simp only [ExprNode.preOrder, List.mem_cons, List.mem_append, List.mem_map]
    rcases h with (⟨a, ha, rfl⟩ | ⟨a, ha, rfl⟩) | rfl
    · exact Or.inr (Or.inl ⟨a, ihl a ha, rfl⟩)
    · exact Or.inr (Or.inr ⟨a, ihr a ha, rfl⟩)
    · exact Or.inl rfl

theorem subtree_append (q : Path) : ∀ (t : ExprNode) (q2 : Path),
    t.subtree (q ++ q2) = (t.subtree q).subtree q2 := by
  induction q with
  | nil => intro t q2; cases t <;> rfl
  | cons b q ih =>
    intro t q2
    cases t with
    | nil => simp [ExprNode.subtree, subtree_nil]
    | node tok l r => cases b <;> simp [ExprNode.subtree, ih]

theorem wellFormed_subtree (q : Path) : ∀ (t : ExprNode), t.wellFormed = true →
    t.subtree q ≠ .nil → (t.subtree q).wellFormed = true := by
  induction q with
  | nil => intro t h _; cases t <;> exact h
  | cons b q ih =>
    intro t hwf hne
    cases t with
    | nil => simp [ExprNode.wellFormed] at hwf
    | node tok l r =>
      cases hop : isOperator tok.Typ with
      | false =>
        simp [ExprNode.wellFormed, hop] at hwf
        rw [hwf.1.1.2, hwf.1.2] at hne
        cases b <;> simp [ExprNode.subtree, subtree_nil] at hne
      | true =>
        simp only [ExprNode.wellFormed, hop, if_true, Bool.and_eq_true] at hwf
        cases b with
        | false => exact ih l hwf.1 hne
        | true => exact ih r hwf.2 hne

theorem preOrderId_left (tok : Token) (l r : ExprNode) (n : Nat) (q : Path)
    (hq : q ∈ l.preOrder) :
    preOrderId (.node tok l r) n (false :: q) = preOrderId l (n + 1) q := by
  unfold preOrderId
  have h2 : (false :: q) ∈ l.preOrder.map (List.cons false) := List.mem_map_of_mem _ hq
  rw [ExprNode.preOrder, position, if_neg (by simp), position_append_of_mem _ _ _ h2,
    position_map_cons]
  congr 1; omega

theorem preOrderId_right (tok : Token) (l r : ExprNode) (n : Nat) (q : Path) :
    preOrderId (.node tok l r) n (true :: q) = preOrderId r (n + 1 + l.size) q := by
  unfold preOrderId
  have h2 : (true :: q) ∉ l.preOrder.map (List.cons false) := by simp
  rw [ExprNode.preOrder, position, if_neg (by simp), position_append_of_not_mem _ _ _ h2,
    position_map_cons, List.length_map, length_preOrder]
  congr 1; omega

theorem preOrderId_root (tok : Token) (l r : ExprNode) (n : Nat) :
    preOrderId (.node tok l r) n [] = tmp n := by
  simp [preOrderId, ExprNode.preOrder, position]

theorem subtree_root (t : ExprNode) : t.subtree [] = t := by
  cases t <;> rfl

theorem child_mem_preOrder (t : ExprNode) (hwf : t.wellFormed = true) (q : Path)
    (tok : Token) (l r : ExprNode) (c : Char) (hq : t.subtree q = .node tok l r)
    (hc : opChar tok.Typ = some c) (b : Bool) : q ++ [b] ∈ t.preOrder := by
  have hsub : (t.subtree q).wellFormed = true :=
    wellFormed_subtree q t hwf (by rw [hq]; simp)
  have hop : isOperator tok.Typ = true := by
    cases ho : isOperator tok.Typ with
    | true => rfl
    | false => rw [(opChar_eq_none_iff _).2 ho] at hc; exact absurd hc (by simp)
  rw [hq] at hsub
  simp only [ExprNode.wellFormed, hop, if_true, Bool.and_eq_true] at hsub
  rw [mem_preOrder_iff, subtree_append, hq]
  cases b with
  | false =>
    intro h
    have h1 : l = .nil := by simpa [ExprNode.subtree, subtree_root] using h
    rw [h1] at hsub; simp [ExprNode.wellFormed] at hsub
  | true =>
    intro h
    have h1 : r = .nil := by simpa [ExprNode.subtree, subtree_root] using h
    rw [h1] at hsub; simp [ExprNode.wellFormed] at hsub

theorem declarationAt_left (tok : Token) (l r : ExprNode) (n : Nat) (q : Path)
    (hl : l.wellFormed = true) (hq : q ∈ l.preOrder) :
    declarationAt (.node tok l r) n (false :: q) = declarationAt l (n + 1) q := by
  unfold declarationAt
  have hs : (ExprNode.node tok l r).subtree (false :: q) = l.subtree q := rfl
  rw [hs]
  cases hsub : l.subtree q with
  | nil => rfl
  | node tok1 l1 r1 =>
    cases hc : opChar tok1.Typ with
    | none => simp only [hc]; rw [preOrderId_left tok l r n q hq]
    | some c =>
      simp only [hc]
      rw [preOrderId_left tok l r n q hq, List.cons_append, List.cons_append,
        preOrderId_left tok l r n _ (child_mem_preOrder l hl q tok1 l1 r1 c hsub hc false),
        preOrderId_left tok l r n _ (child_mem_preOrder l hl q tok1 l1 r1 c hsub hc true)]

theorem declarationAt_right (tok : Token) (l r : ExprNode) (n : Nat) (q : Path) :
    declarationAt (.node tok l r) n (true :: q) = declarationAt r (n + 1 + l.size) q := by
  unfold declarationAt
  have hs : (ExprNode.node tok l r).subtree (true :: q) = r.subtree q := rfl
  rw [hs]
  cases hsub : r.subtree q with
  | nil => rfl
  | node tok1 l1 r1 =>
    cases hc : opChar tok1.Typ with
    | none => simp only [hc]; rw [preOrderId_right]
    | some c =>
      simp only [hc]
      rw [preOrderId_right, List.cons_append, List.cons_append, preOrderId_right,
        preOrderId_right]

theorem nil_mem_preOrder (t : ExprNode) (h : t.wellFormed = true) : ([] : Path) ∈ t.preOrder := by
  cases t with
  | nil => simp [ExprNode.wellFormed] at h
  | node tok l r => simp [ExprNode.preOrder]

/-- The lines of a well-formed tree are the declarations of its nodes taken in
post-order, the id of a node being its position in pre-order. -/
theorem emitted_eq_postOrder (t : ExprNode) : ∀ n : Nat, t.wellFormed = true →
    emitted t n = t.postOrder.map (declarationAt t n) := by
  induction t with
  | nil => intro n h; simp [ExprNode.wellFormed] at h
  | node tok l r ihl ihr =>
    intro n hwf
    cases hc : opChar tok.Typ with
    | none =>
      have hop := (opChar_eq_none_iff _).1 hc
      simp [ExprNode.wellFormed, hop] at hwf
      rw [emitted_leaf tok l r n hc, hwf.1.1.2, hwf.1.2]
      simp [ExprNode.postOrder, declarationAt, ExprNode.subtree, hc, preOrderId_root]
    | some c =>
      have hop : isOperator tok.Typ = true := by
        cases ho : isOperator tok.Typ with
        | true => rfl
        | false => rw [(opChar_eq_none_iff _).2 ho] at hc; exact absurd hc (by simp)
      simp only [ExprNode.wellFormed, hop, if_true, Bool.and_eq_true] at hwf
      have hroot : declarationAt (.node tok l r) n [] =
          Stmt.binop (tmp n) (tmp (n + 1)) c (tmp (n + 1 + l.size)) := by
        simp only [declarationAt, ExprNode.subtree, hc, preOrderId_root, List.nil_append]
        rw [preOrderId_left tok l r n [] (nil_mem_preOrder l hwf.1), preOrderId_right,
          preOrderId, preOrderId]
        cases l with
        | nil => simp [ExprNode.wellFormed] at hwf
        | node tl ll rl =>
          cases r with
          | nil => simp [ExprNode.wellFormed] at hwf
          | node tr lr rr => simp [ExprNode.preOrder, position]
      rw [emitted_operator tok l r n c hc hwf.1 hwf.2, ihl (n + 1) hwf.1,
        ihr (n + 1 + l.size) hwf.2, ExprNode.postOrder, List.map_append, List.map_append,
        List.map_map, List.map_map, List.map_singleton, hroot]
      congr 1
      congr 1
      · apply List.map_congr_left
        intro q hq
        exact (declarationAt_left tok l r n q hwf.1 (mem_preOrder_of_mem_postOrder l q hq)).symm
      · apply List.map_congr_left
        intro q _
        exact (declarationAt_right tok l r n q).symm

theorem declId_declarationAt (t : ExprNode) (n : Nat) (q : Path) (hq : q ∈ t.preOrder) :
    (declarationAt t n q).declId = some (preOrderId t n q) := by
  have hne := (mem_preOrder_iff t q).1 hq
  unfold declarationAt
  cases hsub : t.subtree q with
  | nil => exact absurd hsub hne
  | node tok l r => cases hc : opChar tok.Typ <;> simp [hc, Stmt.declId]

theorem declaredIds_map_declarationAt (t : ExprNode) (n : Nat) (L : List Path)
    (hL : ∀ q ∈ L, q ∈ t.preOrder) :
    declaredIds (L.map (declarationAt t n)) = L.map (preOrderId t n) := by
  induction L with
  | nil => rfl
  | cons q L ih =>
    rw [List.map_cons, declaredIds_cons, declId_declarationAt t n q (hL q (List.mem_cons_self _ _)),
      ih (fun x hx => hL x (List.mem_cons_of_mem _ hx))]
    rfl

theorem declaredIds_emitted_postOrder (t : ExprNode) (n : Nat) (hwf : t.wellFormed = true) :
    declaredIds (emitted t n) = t.postOrder.map (preOrderId t n) := by
  rw [emitted_eq_postOrder t n hwf]
  exact declaredIds_map_declarationAt t n _ (mem_preOrder_of_mem_postOrder t)

theorem getLast_declaredIds_emitted (t : ExprNode) (n : Nat) (hwf : t.wellFormed = true) :
    (declaredIds (emitted t n)).getLast? = some (tmp n) := by
  rw [declaredIds_emitted_postOrder t n hwf]
  cases t with
  | nil => simp [ExprNode.wellFormed] at hwf
  | node tok l r => simp [ExprNode.postOrder, preOrderId_root]

theorem size_eq_zero_iff (t : ExprNode) : t.size = 0 ↔ t = .nil := by
  cases t with
  | nil => simp [ExprNode.size]
  | node tok l r => simp [ExprNode.size]

/-- C3, as the code has it. For every well-formed expression tree the lines
that `GenC` writes on a fresh `Compiler` are the declarations of the nodes in
post-order (the lines of the left subtree, those of the right subtree, then the
line of the node), while the ids follow the pre-order: the node at position `j`
of the pre-order declares `t<j>`.  The last declaration is the one of `t0`, and
the `i`-th declaration declares `t<i>` for every `i` only when the tree is a
single leaf. -/
theorem GenC_postOrder_lines_preOrder_ids (t : ExprNode) (hwf : t.wellFormed = true) :
    parseProgram (Compiler.new.GenC t) = some (Compiler.new.GenCBuf t).1 ∧
    (Compiler.new.GenCBuf t).1 =
      Stmt.header :: (t.postOrder.map (declarationAt t 0) ++ [Stmt.ret (tmp 0), Stmt.footer]) ∧
    declaredIds (Compiler.new.GenCBuf t).1 = t.postOrder.map (preOrderId t 0) ∧
    (declaredIds (Compiler.new.GenCBuf t).1).getLast? = some (tmp 0) ∧
    (declaredIds (Compiler.new.GenCBuf t).1 = (List.range t.size).map tmp ↔ t.size = 1) := by
  refine ⟨parseProgram_GenC t hwf, ?_, ?_, ?_, ?_⟩
  · rw [GenCBuf_wellFormed t hwf, emitted_eq_postOrder t 0 hwf]
  · rw [declaredIds_GenCBuf t hwf, declaredIds_emitted_postOrder t 0 hwf]
  · rw [declaredIds_GenCBuf t hwf, getLast_declaredIds_emitted t 0 hwf]
  · rw [declaredIds_GenCBuf t hwf]
    constructor
    · intro h
      have hlast := getLast_declaredIds_emitted t 0 hwf
      have hpos := size_pos_of_wellFormed t hwf
      obtain ⟨m, hm⟩ : ∃ m, t.size = m + 1 := ⟨t.size - 1, by omega⟩
      rw [h, hm, List.range_succ, List.map_append, List.map_singleton,
        List.getLast?_concat] at hlast
      have := tmp_injective (Option.some.inj hlast)
      omega
    · intro h
      cases t with
      | nil => simp [ExprNode.wellFormed] at hwf
      | node tok l r =>
        have hl : l = .nil := (size_eq_zero_iff l).1 (by simp [ExprNode.size] at h; omega)
        have hr : r = .nil := (size_eq_zero_iff r).1 (by simp [ExprNode.size] at h; omega)
        subst hl; subst hr
        cases hc : opChar tok.Typ with
        | none => rw [emitted_leaf _ _ _ _ hc]; rfl
        | some c =>
          have hop : isOperator tok.Typ = true := by
            cases ho : isOperator tok.Typ with
            | true => rfl
            | false => rw [(opChar_eq_none_iff _).2 ho] at hc; exact absurd hc (by simp)
          simp [ExprNode.wellFormed, hop] at hwf

/-- Witness of the corrected C3 on the tree of `1+2`. -/
theorem GenC_postOrder_lines_preOrder_ids_witness :
    tree_1_add_2.wellFormed = true ∧
    declaredIds (Compiler.new.GenCBuf tree_1_add_2).1 =
      tree_1_add_2.postOrder.map (preOrderId tree_1_add_2 0) ∧
    tree_1_add_2.postOrder.map (preOrderId tree_1_add_2 0) =
      ["t1".toList, "t2".toList, "t0".toList] :=
  ⟨by decide, (GenC_postOrder_lines_preOrder_ids tree_1_add_2 (by decide)).2.2.1, by decide⟩

/-- C3 as stated fails on the tree of `1+2`: the declarations written are those
of `t1`, `t2`, `t0` in this order, so the ids read in output order are not
increasing from 0 and the first declaration does not declare `t0`. -/
theorem GenC_ids_not_increasing_in_output_order :
    tree_1_add_2.wellFormed = true ∧
    Compiler.new.GenC tree_1_add_2 =
      "int main() \x7b\n\tint t1 = 1;\n\tint t2 = 2;\n\tint t0 = t1 + t2;\n\treturn t0;\n\x7d\n".toList ∧
    declaredIds (Compiler.new.GenCBuf tree_1_add_2).1 = [tmp 1, tmp 2, tmp 0] ∧
    declaredIds (Compiler.new.GenCBuf tree_1_add_2).1 ≠
      (List.range tree_1_add_2.size).map tmp := by
  refine ⟨by decide, by decide, by decide, by decide⟩

/-! ## The temporary that the program returns -/

theorem returned_append_of_declarations (a : List Stmt) (b : List Stmt)
    (ha : ∀ d ∈ a, ∃ x, d.declId = some x) : returned (a ++ b) = returned b := by
  induction a with
  | nil => rfl
  | cons d a ih =>
    obtain ⟨x, hx⟩ := ha d (List.mem_cons_self _ _)
    have hrest := ih (fun e he => ha e (List.mem_cons_of_mem _ he))
    cases d with
    | header => simp [Stmt.declId] at hx
    | assign id val => simpa [returned] using hrest
    | binop id lhs op rhs => simpa [returned] using hrest
    | ret id => simp [Stmt.declId] at hx
    | footer => simp [Stmt.declId] at hx

theorem declId_of_mem_emitted (t : ExprNode) (n : Nat) (hwf : t.wellFormed = true) :
    ∀ d ∈ emitted t n, ∃ x, d.declId = some x := by
  intro d hd
  rw [emitted_eq_postOrder t n hwf] at hd
  obtain ⟨q, hq, rfl⟩ := List.mem_map.1 hd
  exact ⟨_, declId_declarationAt t n q (mem_preOrder_of_mem_postOrder t q hq)⟩

theorem returned_GenCBuf (t : ExprNode) (hwf : t.wellFormed = true) :
    returned (Compiler.new.GenCBuf t).1 = some (tmp 0) := by
  rw [GenCBuf_wellFormed t hwf]
  show returned (emitted t 0 ++ [Stmt.ret (tmp 0), Stmt.footer]) = some (tmp 0)
  rw [returned_append_of_declarations _ _ (declId_of_mem_emitted t 0 hwf)]
  rfl

/-- C4, as the code has it. For every well-formed expression tree with `k`
nodes the temporary named in the `return` line of the program that `GenC`
writes on a fresh `Compiler` is `t0`, the id of the root: it is declared by the
last declaration, the declared ids are of the form `t<j>` with `0 ≤ j < k`,
`t<k-1>` is among them, and so `t0` is the lowest id declared; it is the
highest one exactly when the tree is a single leaf. -/
theorem GenC_returns_root_id (t : ExprNode) (hwf : t.wellFormed = true) :
    parseProgram (Compiler.new.GenC t) = some (Compiler.new.GenCBuf t).1 ∧
    returned (Compiler.new.GenCBuf t).1 = some (tmp 0) ∧
    (declaredIds (Compiler.new.GenCBuf t).1).getLast? = some (tmp 0) ∧
    (∀ x ∈ declaredIds (Compiler.new.GenCBuf t).1, ∃ j, x = tmp j ∧ 0 ≤ j ∧ j < t.size) ∧
    tmp (t.size - 1) ∈ declaredIds (Compiler.new.GenCBuf t).1 ∧
    ((∀ x ∈ declaredIds (Compiler.new.GenCBuf t).1, ∀ j, x = tmp j → j ≤ 0) ↔ t.size = 1) := by
  have hpos := size_pos_of_wellFormed t hwf
  have hperm : (declaredIds (Compiler.new.GenCBuf t).1).Perm ((List.range t.size).map tmp) := by
    rw [declaredIds_GenCBuf t hwf, List.range_eq_range']
    exact declaredIds_emitted t 0 hwf
  have hmem : ∀ x, x ∈ declaredIds (Compiler.new.GenCBuf t).1 ↔ ∃ j, j < t.size ∧ tmp j = x := by
    intro x
    rw [hperm.mem_iff, List.mem_map]
    simp only [List.mem_range]
  refine ⟨parseProgram_GenC t hwf, returned_GenCBuf t hwf, ?_, ?_, ?_, ?_⟩
  · rw [declaredIds_GenCBuf t hwf, getLast_declaredIds_emitted t 0 hwf]
  · intro x hx
    obtain ⟨j, hj, rfl⟩ := (hmem x).1 hx
    exact ⟨j, rfl, Nat.zero_le _, hj⟩
  · exact (hmem _).2 ⟨t.size - 1, by omega, rfl⟩
  · constructor
    · intro h
      have := h (tmp (t.size - 1)) ((hmem _).2 ⟨t.size - 1, by omega, rfl⟩) (t.size - 1) rfl
      omega
    · intro h x hx j hxj
      obtain ⟨i, hi, rfl⟩ := (hmem x).1 hx
      have := tmp_injective hxj
      omega

/-- Witness of the corrected C4 on the tree of `2*(3+4)`. -/
theorem GenC_returns_root_id_witness :
    tree_2_mul_3_add_4.wellFormed = true ∧
    returned (Compiler.new.GenCBuf tree_2_mul_3_add_4).1 = some "t0".toList :=
  ⟨by decide, (GenC_returns_root_id tree_2_mul_3_add_4 (by decide)).2.1⟩

/-- C4 as stated fails on the tree of `1+2`: the program returns `t0` although
it declares `t1` and `t2`, so the returned temporary is the one with the lowest
id, not the highest. -/
theorem GenC_return_is_not_highest_id :
    tree_1_add_2.wellFormed = true ∧
    Compiler.new.GenC tree_1_add_2 =
      "int main() \x7b\n\tint t1 = 1;\n\tint t2 = 2;\n\tint t0 = t1 + t2;\n\treturn t0;\n\x7d\n".toList ∧
    parseProgram (Compiler.new.GenC tree_1_add_2) = some (Compiler.new.GenCBuf tree_1_add_2).1 ∧
    returned (Compiler.new.GenCBuf tree_1_add_2).1 = some "t0".toList ∧
    "t2".toList ∈ declaredIds (Compiler.new.GenCBuf tree_1_add_2).1 ∧
    (declaredIds (Compiler.new.GenCBuf tree_1_add_2).1).map tmpIndex = [some 1, some 2, some 0] ∧
    (returned (Compiler.new.GenCBuf tree_1_add_2).1).bind tmpIndex = some 0 := by
  refine ⟨by decide, by decide, by decide, by decide, by decide, by decide, by decide⟩

/-! ## `parse_tokens` -/

theorem not_mem_of_noAddSub {s : Str} (h : noAddSub s = true) :
    ∀ c ∈ s, c ∉ "+-".toList := by
  intro c hc
  have := List.all_eq_true.1 h c hc
  simpa [isAddSub] using this

theorem IndexAny_of_noAddSub (s : Str) (h : noAddSub s = true) :
    IndexAny s "+-".toList = -1 := by
  induction s with
  | nil => rfl
  | cons c s ih =>
    have hc : c ∉ "+-".toList := not_mem_of_noAddSub h c (List.mem_cons_self _ _)
    have hs : noAddSub s = true := by
      simp only [noAddSub, List.all_cons, Bool.and_eq_true] at h ⊢
      exact h.2
    rw [IndexAny, if_neg hc, ih hs]
    rfl

theorem IndexAny_at_operator (s : Str) (o : Char) (t : Str) (h : noAddSub s = true)
    (ho : isAddSub o = true) : IndexAny (s ++ o :: t) "+-".toList = (s.length : Int) := by
  induction s with
  | nil =>
    have : o ∈ "+-".toList := by simpa [isAddSub] using ho
    rw [List.nil_append, IndexAny, if_pos this]
    rfl
  | cons c s ih =>
    have hc : c ∉ "+-".toList := not_mem_of_noAddSub h c (List.mem_cons_self _ _)
    have hs : noAddSub s = true := by
      simp only [noAddSub, List.all_cons, Bool.and_eq_true] at h ⊢
      exact h.2
    rw [List.cons_append, IndexAny, if_neg hc, ih hs]
    have : ¬ ((s.length : Int) < 0) := by omega
    rw [if_neg this]
    simp

/-- The loop of `parse_tokens` on a cut string, with enough fuel. -/
theorem parse_tokens_loop_joinOps (rest : List (Char × Str)) :
    ∀ (s : Str) (tokens : List Str) (fuel : Nat),
    (joinOps s rest).length < fuel → noAddSub s = true → validOps rest = true →
    parse_tokens_loop fuel (joinOps s rest) tokens = some (tokens ++ tokensOf s rest) := by
  induction rest with
  | nil =>
    intro s tokens fuel hfuel hs _
    obtain ⟨f, rfl⟩ : ∃ f, fuel = f + 1 := ⟨fuel - 1, by omega⟩
    simp only [joinOps, List.map_nil, List.flatten_nil, List.append_nil, tokensOf, segmentTokens]
    rw [parse_tokens_loop]
    by_cases h0 : s = []
    · simp [h0]
    · simp only [h0, if_false, IndexAny_of_noAddSub s hs]
      simp
  | cons p rest ih =>
    intro s tokens fuel hfuel hs hv
    obtain ⟨o, s1⟩ := p
    obtain ⟨f, rfl⟩ : ∃ f, fuel = f + 1 := ⟨fuel - 1, by omega⟩
    simp only [validOps, Bool.and_eq_true] at hv
    have hjoin : joinOps s ((o, s1) :: rest) = s ++ o :: joinOps s1 rest := by
      simp [joinOps]
    rw [hjoin] at hfuel ⊢
    have hne : s ++ o :: joinOps s1 rest ≠ [] := by simp
    rw [parse_tokens_loop, if_neg hne]
    simp only [IndexAny_at_operator s o _ hs hv.1.1]
    have hge : ((s.length : Int) ≥ 0) := by omega
    rw [if_pos hge]
    simp only [Int.toNat_ofNat]
    have hdrop : List.drop (s.length + 1) (s ++ o :: joinOps s1 rest) = joinOps s1 rest := by
      rw [show s.length + 1 = (s ++ [o]).length by simp,
        show s ++ o :: joinOps s1 rest = (s ++ [o]) ++ joinOps s1 rest by simp, List.drop_left]
    have htake : List.take s.length (s ++ o :: joinOps s1 rest) = s := by
      rw [List.take_left]
    have hdrop0 : List.drop s.length (s ++ o :: joinOps s1 rest) = o :: joinOps s1 rest := by
      rw [List.drop_left]
    rw [hdrop, htake, hdrop0, ih s1 _ f (by simp at hfuel; omega) hv.1.2 hv.2]
    by_cases h0 : s = []
    · subst h0; simp [tokensOf, segmentTokens]
    · have hpos : ((s.length : Int) > 0) := by
        have := List.length_pos.2 h0; omega
      rw [if_pos hpos]
      simp [tokensOf, segmentTokens, h0]

theorem splitOps_spec (code : Str) :
    joinOps (splitOps code).1 (splitOps code).2 = code ∧
    noAddSub (splitOps code).1 = true ∧ validOps (splitOps code).2 = true := by
  induction code with
  | nil => exact ⟨rfl, rfl, rfl⟩
  | cons c s ih =>
    obtain ⟨h1, h2, h3⟩ := ih
    by_cases hc : isAddSub c = true
    · simp only [splitOps, hc, if_true]
      refine ⟨?_, rfl, ?_⟩
      · simp only [joinOps, List.map_cons, List.flatten_cons, List.nil_append, List.cons_append]
        exact congrArg (List.cons c) h1
      · simp [validOps, hc, h2, h3]
    · have hc1 : isAddSub c = false := by simpa using hc
      have hsplit : splitOps (c :: s) = (c :: (splitOps s).1, (splitOps s).2) := by
        rw [splitOps, hc1]; rfl
      rw [hsplit]
      refine ⟨?_, ?_, h3⟩
      · exact congrArg (List.cons c) h1
      · unfold noAddSub at h2 ⊢
        rw [List.all_cons, h2, hc1]
        rfl

/-- The tokens of `parse_tokens`: the loop ends within its fuel on every
input, and its tokens are those of the input cut at its operators. -/
theorem parse_tokens_eq (code : Str) :
    parse_tokens code = some (tokensOf (splitOps code).1 (splitOps code).2) := by
  obtain ⟨h1, h2, h3⟩ := splitOps_spec code
  unfold parse_tokens
  have := parse_tokens_loop_joinOps (splitOps code).2 (splitOps code).1 [] (code.length + 1)
    (by rw [h1]; omega) h2 h3
  rw [h1] at this
  simpa using this

theorem flatten_tokensOf (rest : List (Char × Str)) : ∀ s : Str,
    (tokensOf s rest).flatten =
      TrimSpace s ++ (rest.map (fun p => p.1 :: TrimSpace p.2)).flatten := by
  have hseg : ∀ s : Str, (segmentTokens s).flatten = TrimSpace s := by
    intro s
    by_cases h0 : s = []
    · subst h0; rfl
    · simp [segmentTokens, h0]
  induction rest with
  | nil => intro s; simp [tokensOf, hseg]
  | cons p rest ih =>
    intro s
    obtain ⟨o, s1⟩ := p
    simp [tokensOf, hseg, ih]

theorem removeSpace_dropWhile (s : Str) : removeSpace (s.dropWhile isSpace) = removeSpace s := by
  induction s with
  | nil => rfl
  | cons c s ih =>
    by_cases hc : isSpace c = true
    · simp only [List.dropWhile_cons, hc, if_true, ih]
      simp [removeSpace, hc]
    · simp [List.dropWhile_cons, hc]

theorem removeSpace_reverse (s : Str) : removeSpace s.reverse = (removeSpace s).reverse := by
  simp [removeSpace, List.filter_reverse]

theorem removeSpace_TrimSpace (s : Str) : removeSpace (TrimSpace s) = removeSpace s := by
  unfold TrimSpace
  rw [removeSpace_reverse, removeSpace_dropWhile, removeSpace_reverse, List.reverse_reverse,
    removeSpace_dropWhile]

theorem removeSpace_append (a b : Str) : removeSpace (a ++ b) = removeSpace a ++ removeSpace b := by
  simp [removeSpace]

theorem TrimSpace_sublist (s : Str) : (TrimSpace s).Sublist s := by
  unfold TrimSpace
  have h1 : (s.dropWhile isSpace).Sublist s := List.dropWhile_sublist _
  have h2 : ((s.dropWhile isSpace).reverse.dropWhile isSpace).Sublist (s.dropWhile isSpace).reverse :=
    List.dropWhile_sublist _
  have h3 := List.Sublist.reverse h2
  rw [List.reverse_reverse] at h3
  exact h3.trans h1

theorem isSpace_of_isAddSub {o : Char} (h : isAddSub o = true) : isSpace o = false := by
  have : o = '+' ∨ o = '-' := by simpa [isAddSub] using h
  rcases this with rfl | rfl <;> decide

theorem trimmed_joinOps (rest : List (Char × Str)) : ∀ s : Str, validOps rest = true →
    removeSpace (TrimSpace s ++ (rest.map (fun p => p.1 :: TrimSpace p.2)).flatten) =
      removeSpace (joinOps s rest) ∧
    (TrimSpace s ++ (rest.map (fun p => p.1 :: TrimSpace p.2)).flatten).Sublist (joinOps s rest) := by
  induction rest with
  | nil =>
    intro s _
    simp [joinOps, removeSpace_TrimSpace, TrimSpace_sublist]
  | cons p rest ih =>
    intro s hv
    obtain ⟨o, s1⟩ := p
    simp only [validOps, Bool.and_eq_true] at hv
    obtain ⟨ih1, ih2⟩ := ih s1 hv.2
    have ho := isSpace_of_isAddSub hv.1.1
    have hjoin : joinOps s ((o, s1) :: rest) = s ++ o :: joinOps s1 rest := by
      simp [joinOps]
    have hcut : (TrimSpace s ++
        (((o, s1) :: rest).map (fun p => p.1 :: TrimSpace p.2)).flatten) =
        TrimSpace s ++ o :: (TrimSpace s1 ++ (rest.map (fun p => p.1 :: TrimSpace p.2)).flatten) := by
      simp
    rw [hjoin, hcut]
    constructor
    · rw [removeSpace_append, removeSpace_append, removeSpace_TrimSpace]
      congr 1
      have hcons : ∀ x : Str, removeSpace (o :: x) = o :: removeSpace x := by
        intro x; simp [removeSpace, ho]
      rw [hcons, hcons, ih1]
    · exact List.Sublist.append (TrimSpace_sublist s) (List.Sublist.cons₂ o ih2)

/-- C8, as the code has it. For every input string `parse_tokens` returns, and
the concatenation of its tokens is the input with the white space removed at
both ends of each text between operators (white space inside such a text
stays): it is a subsequence of the input, and it equals the input once the
white space is removed from both. -/
theorem parse_tokens_concat (code : Str) :
    ∃ tokens, parse_tokens code = some tokens ∧
      tokens.flatten = trimOperands code ∧
      removeSpace tokens.flatten = removeSpace code ∧
      tokens.flatten.Sublist code := by
  obtain ⟨h1, _, h3⟩ := splitOps_spec code
  obtain ⟨ha, hb⟩ := trimmed_joinOps (splitOps code).2 (splitOps code).1 h3
  rw [h1] at ha hb
  refine ⟨_, parse_tokens_eq code, ?_, ?_, ?_⟩
  · rw [flatten_tokensOf]; rfl
  · rw [flatten_tokensOf]; exact ha
  · rw [flatten_tokensOf]; exact hb

/-- C8 as stated fails on the input `1 2+3`: the space inside the first
operand is part of the token `1 2`, so the concatenation of the tokens is the
input itself and not the input without its white space. -/
theorem parse_tokens_keeps_inner_space :
    parse_tokens "1 2+3".toList = some ["1 2".toList, "+".toList, "3".toList] ∧
    ["1 2".toList, "+".toList, "3".toList].flatten = "1 2+3".toList ∧
    removeSpace "1 2+3".toList = "12+3".toList ∧
    ¬ ∃ tokens, parse_tokens "1 2+3".toList = some tokens ∧
      tokens.flatten = removeSpace "1 2+3".toList := by
  have h : parse_tokens "1 2+3".toList = some ["1 2".toList, "+".toList, "3".toList] := by decide
  refine ⟨h, by decide, by decide, ?_⟩
  rintro ⟨tokens, ht, hf⟩
  rw [h] at ht
  cases ht
  exact absurd hf (by decide)

/-! ## The add/sub pipeline on `n0 op1 n1 ... opk nk` -/

theorem isSpace_of_isDigit {c : Char} (h : c.isDigit = true) : isSpace c = false := by
  simp only [Char.isDigit, Bool.and_eq_true, decide_eq_true_eq] at h
  have h1 : 48 ≤ c.toNat := by
    have := h.1; exact this
  have h2 : c.toNat ≤ 57 := by
    have := h.2; exact this
  simp only [isSpace]
  simp
  omega

theorem dropWhile_append_of_all (p : Char → Bool) (a b : Str) (h : a.all p = true) :
    (a ++ b).dropWhile p = b.dropWhile p := by
  induction a with
  | nil => rfl
  | cons c a ih =>
    simp only [List.all_cons, Bool.and_eq_true] at h
    simp [List.dropWhile_cons, h.1, ih h.2]

theorem dropWhile_isSpace_numeral (d b : Str) (h : isNumeral d = true) :
    (d ++ b).dropWhile isSpace = d ++ b := by
  cases d with
  | nil => simp [isNumeral] at h
  | cons c d =>
    simp only [isNumeral, List.all_cons, Bool.and_eq_true] at h
    simp [List.dropWhile_cons, isSpace_of_isDigit h.2.1]

theorem isNumeral_reverse (d : Str) (h : isNumeral d = true) : isNumeral d.reverse = true := by
  simp only [isNumeral, Bool.and_eq_true, List.all_eq_true] at h ⊢
  refine ⟨?_, fun c hc => h.2 c (List.mem_reverse.1 hc)⟩
  cases d with
  | nil => simp at h
  | cons c d => simp

theorem TrimSpace_operand (n : Operand) (h : n.valid = true) : TrimSpace n.text = n.digits := by
  simp only [Operand.valid, Bool.and_eq_true] at h
  unfold TrimSpace Operand.text
  rw [List.append_assoc, dropWhile_append_of_all _ _ _ h.1.1, dropWhile_isSpace_numeral _ _ h.1.2,
    List.reverse_append, dropWhile_append_of_all _ _ _ (by simpa using h.2)]
  have := dropWhile_isSpace_numeral n.digits.reverse [] (isNumeral_reverse _ h.1.2)
  rw [List.append_nil] at this
  rw [this, List.reverse_reverse]

theorem isAddSub_of_isSpace {c : Char} (h : isSpace c = true) : isAddSub c = false := by
  cases hc : isAddSub c with
  | false => rfl
  | true => rw [isSpace_of_isAddSub hc] at h; exact absurd h (by decide)

theorem isAddSub_of_isDigit {c : Char} (h : c.isDigit = true) : isAddSub c = false := by
  cases hc : isAddSub c with
  | false => rfl
  | true =>
    have : c = '+' ∨ c = '-' := by simpa [isAddSub] using hc
    rcases this with rfl | rfl <;> exact absurd h (by decide)

theorem noAddSub_operand (n : Operand) (h : n.valid = true) : noAddSub n.text = true := by
  simp only [Operand.valid, isNumeral, Bool.and_eq_true, List.all_eq_true] at h
  simp only [noAddSub, Operand.text, List.all_eq_true, List.mem_append, Bool.not_eq_true']
  rintro c ((hc | hc) | hc)
  · exact isAddSub_of_isSpace (h.1.1 c hc)
  · exact isAddSub_of_isDigit (h.1.2.2 c hc)
  · exact isAddSub_of_isSpace (h.2 c hc)

theorem operand_text_ne_nil (n : Operand) (h : n.valid = true) : n.text ≠ [] := by
  simp only [Operand.valid, isNumeral, Bool.and_eq_true] at h
  intro h0
  have hd : n.digits = [] := by
    simp only [Operand.text, List.append_eq_nil] at h0
    exact h0.1.2
  rw [hd] at h
  simp at h

theorem isAddSub_char (o : AddOp) : isAddSub o.char = true := by
  cases o <;> decide

/-- The tokens of `n0 op1 n1 ... opk nk`. -/
theorem parse_tokens_expression (n0 : Operand) (rest : List (AddOp × Operand))
    (h0 : n0.valid = true) (hrest : ∀ p ∈ rest, p.2.valid = true) :
    parse_tokens (expression n0 rest) = some (n0.digits :: operatorTokens rest) := by
  have hcut : expression n0 rest = joinOps n0.text (rest.map (fun p => (p.1.char, p.2.text))) := by
    simp [expression, joinOps, List.map_map, Function.comp_def]
  have hvalid : ∀ (l : List (AddOp × Operand)), (∀ p ∈ l, p.2.valid = true) →
      validOps (l.map (fun p => (p.1.char, p.2.text))) = true := by
    intro l
    induction l with
    | nil => intro _; rfl
    | cons p l ih =>
      intro hl
      simp only [List.map_cons, validOps, Bool.and_eq_true]
      exact ⟨⟨isAddSub_char _, noAddSub_operand _ (hl p (List.mem_cons_self _ _))⟩,
        ih (fun q hq => hl q (List.mem_cons_of_mem _ hq))⟩
  have htok : ∀ (l : List (AddOp × Operand)) (n : Operand), n.valid = true →
      (∀ p ∈ l, p.2.valid = true) →
      tokensOf n.text (l.map (fun p => (p.1.char, p.2.text))) = n.digits :: operatorTokens l := by
    intro l
    induction l with
    | nil =>
      intro n hn _
      simp [tokensOf, segmentTokens, operand_text_ne_nil n hn, TrimSpace_operand n hn,
        operatorTokens]
    | cons p l ih =>
      intro n hn hl
      simp only [List.map_cons, tokensOf, segmentTokens, operand_text_ne_nil n hn, if_false,
        TrimSpace_operand n hn]
      rw [ih p.2 (hl p (List.mem_cons_self _ _)) (fun q hq => hl q (List.mem_cons_of_mem _ hq))]
      simp [operatorTokens]
  unfold parse_tokens
  rw [hcut, parse_tokens_loop_joinOps _ _ _ _ (by omega) (noAddSub_operand n0 h0) (hvalid rest hrest),
    htok rest n0 h0 hrest]
  rfl

theorem numeral_ne_operator (d : Str) (h : isNumeral d = true) :
    d ≠ "+".toList ∧ d ≠ "-".toList := by
  constructor <;> intro hd <;> rw [hd] at h <;> exact absurd h (by decide)

/-- The loop of `gen_c` over `op1, n1, ..., opk, nk`: one line for each
operator, none for the operands. -/
theorem gen_c_loop_operatorTokens (rest : List (AddOp × Operand)) :
    ∀ (tokens pre : List Str) (idx : Nat) (buf : List Stmt),
    tokens = pre ++ operatorTokens rest → 0 < pre.length →
    (∀ p ∈ rest, p.2.valid = true) →
    gen_c_loop tokens pre.length (operatorTokens rest) idx buf =
      some (idx + rest.length, buf ++ operatorLines idx rest) := by
  induction rest with
  | nil => intro tokens pre idx buf _ _ _; simp [operatorTokens, gen_c_loop, operatorLines]
  | cons p rest ih =>
    intro tokens pre idx buf htok hpre hvalid
    have hp := hvalid p (List.mem_cons_self _ _)
    have hnum : isNumeral p.2.digits = true := by
      simp only [Operand.valid, Bool.and_eq_true] at hp
      exact hp.1.2
    have hcons : operatorTokens (p :: rest) = [p.1.char] :: p.2.digits :: operatorTokens rest := by
      simp [operatorTokens]
    rw [hcons] at htok ⊢
    have hget : tokens.get? (pre.length + 1) = some p.2.digits := by
      have hsplit : pre ++ [p.1.char] :: p.2.digits :: operatorTokens rest =
          (pre ++ [[p.1.char]]) ++ p.2.digits :: operatorTokens rest := by simp
      rw [htok, hsplit, List.get?_eq_getElem?, List.getElem?_append_right (by simp)]
      simp
    have hi : ¬ pre.length = 0 := by omega
    have hi1 : ¬ pre.length + 1 = 0 := by omega
    have hnext := ih tokens (pre ++ [[p.1.char], p.2.digits]) (idx + 1)
      (buf ++ [Stmt.binop (tmp (idx + 1)) (tmp idx) p.1.char p.2.digits])
      (by rw [htok]; simp) (by simp) (fun q hq => hvalid q (List.mem_cons_of_mem _ hq))
    have hlen : (pre ++ [[p.1.char], p.2.digits]).length = pre.length + 1 + 1 := by simp
    rw [hlen] at hnext
    obtain ⟨hne1, hne2⟩ := numeral_ne_operator _ hnum
    cases hop : p.1 with
    | plus =>
      rw [hop] at hnext
      simp only [AddOp.char] at hnext
      have hc : [AddOp.plus.char] = "+".toList := rfl
      rw [hc]
      rw [gen_c_loop, if_neg hi, if_pos rfl, hget]
      simp only [Nat.add_sub_cancel]
      rw [gen_c_loop, if_neg hi1, if_neg hne1, if_neg hne2, hnext]
      clear hlen hnext
      simp [operatorLines, hop, AddOp.char]
      omega
    | minus =>
      rw [hop] at hnext
      simp only [AddOp.char] at hnext
      have hc : [AddOp.minus.char] = "-".toList := rfl
      rw [hc]
      rw [gen_c_loop, if_neg hi, if_neg (by decide), if_pos rfl, hget]
      simp only [Nat.add_sub_cancel]
      rw [gen_c_loop, if_neg hi1, if_neg hne1, if_neg hne2, hnext]
      clear hlen hnext
      simp [operatorLines, hop, AddOp.char]
      omega

/-- The lines that the pipeline writes for `n0 op1 n1 ... opk nk`. -/
theorem compileBuf_expression (n0 : Operand) (rest : List (AddOp × Operand))
    (h0 : n0.valid = true) (hrest : ∀ p ∈ rest, p.2.valid = true) :
    compileBuf (expression n0 rest) =
      some (Stmt.header :: Stmt.binop (tmp 0) "0".toList '+' n0.digits ::
        (operatorLines 0 rest ++ [Stmt.ret (tmp rest.length), Stmt.footer])) := by
  unfold compileBuf
  rw [parse_tokens_expression n0 rest h0 hrest]
  simp only [gen_c_buf]
  rw [gen_c_loop, if_pos rfl]
  have := gen_c_loop_operatorTokens rest (n0.digits :: operatorTokens rest) [n0.digits] 0
    ([Stmt.header] ++ [Stmt.binop (tmp 0) "0".toList '+' n0.digits]) rfl (by simp) hrest
  simp only [List.length_singleton] at this
  rw [this]
  simp

theorem atomic_operatorLines (rest : List (AddOp × Operand)) : ∀ (idx : Nat),
    (∀ p ∈ rest, p.2.valid = true) → ∀ d ∈ operatorLines idx rest, d.atomic = true := by
  induction rest with
  | nil => intro idx _ d hd; simp [operatorLines] at hd
  | cons p rest ih =>
    intro idx hvalid d hd
    have hp := hvalid p (List.mem_cons_self _ _)
    have hnum : isNumeral p.2.digits = true := by
      simp only [Operand.valid, Bool.and_eq_true] at hp
      exact hp.1.2
    have hop : isAtom [p.1.char] = true := by cases p.1 <;> decide
    rw [operatorLines, List.mem_cons] at hd
    rcases hd with rfl | hd
    · simp [Stmt.atomic, isAtom_tmp, isAtom_of_isNumeral _ hnum, hop]
    · exact ih (idx + 1) (fun q hq => hvalid q (List.mem_cons_of_mem _ hq)) d hd

theorem fitsInt_eq_some {x v : Int} (h : fitsInt x = some v) : x = v ∧ fitsInt v = some v := by
  unfold fitsInt at h
  split_ifs at h with hr
  have hv : x = v := Option.some.inj h
  subst hv
  exact ⟨rfl, by unfold fitsInt; rw [if_pos hr]⟩

theorem cConstant_fits {s : Str} {v : Int} (h : cConstant s = some v) : fitsInt v = some v := by
  unfold cConstant at h
  split_ifs at h
  · exact (fitsInt_eq_some h).2
  · exact (fitsInt_eq_some h).2

theorem cConstant_of_cValid (n : Operand) (h : n.cValid = true) :
    n.valid = true ∧ isNumeral n.digits = true ∧ cConstant n.digits = some n.cValue := by
  simp only [Operand.cValid, Bool.and_eq_true] at h
  have hv := h.1
  simp only [Operand.valid, Bool.and_eq_true] at hv
  refine ⟨h.1, hv.1.2, ?_⟩
  unfold Operand.cValue
  cases hc : cConstant n.digits with
  | none => rw [hc] at h; exact absurd h.2 (by decide)
  | some v => rfl

/-- A numeral that does not begin with `0` (or is `0`) has in C the value of
its digits in base ten. -/
theorem cValue_of_decimalForm (n : Operand) (h : n.cValid = true)
    (hd : n.decimalForm = true) : n.cValue = (numeralValue n.digits : Int) := by
  obtain ⟨_, hnum, hc⟩ := cConstant_of_cValid n h
  simp only [Operand.decimalForm, decide_eq_true_eq] at hd
  rcases hd with hd | hd
  · unfold cConstant at hc
    rw [if_pos hnum, if_neg hd] at hc
    exact (fitsInt_eq_some hc).1.symm
  · rw [hd] at hc
    have h0 : cConstant ['0'] = some 0 := by decide
    rw [h0] at hc
    rw [← Option.some.inj hc, hd]
    decide

/-- Running as C the lines of `op1, n1, ..., opk, nk` folds the operations
onto the value of the last temporary, as long as every partial result is in
the range of `int`. -/
theorem execC_operatorLines (rest : List (AddOp × Operand)) :
    ∀ (idx : Nat) (env : Env) (v : Int), (∀ p ∈ rest, p.2.cValid = true) →
    List.lookup (tmp idx) env = some v →
    (∀ j, idx < j → List.lookup (tmp j) env = none) →
    partialsFitInt v rest = true →
    execC (operatorLines idx rest ++ [Stmt.ret (tmp (idx + rest.length)), Stmt.footer]) env =
      some (rest.foldl stepC v) := by
  induction rest with
  | nil =>
    intro idx env v _ hv _ _
    simp [operatorLines, execC, cOperand, isNumeral_tmp, hv]
  | cons p rest ih =>
    intro idx env v hvalid hv hfresh hfit
    obtain ⟨_, hnum, hc⟩ := cConstant_of_cValid p.2 (hvalid p (List.mem_cons_self _ _))
    have hnew : List.lookup (tmp (idx + 1)) env = none := hfresh _ (by omega)
    simp only [partialsFitInt, Bool.and_eq_true] at hfit
    have hstepfit : fitsInt (stepC v p) = some (stepC v p) := by
      cases hf : fitsInt (stepC v p) with
      | none => rw [hf] at hfit; exact absurd hfit.1 (by decide)
      | some z => rw [(fitsInt_eq_some hf).1]
    have hnext : execC (operatorLines (idx + 1) rest ++
          [Stmt.ret (tmp (idx + (p :: rest).length)), Stmt.footer])
          ((tmp (idx + 1), stepC v p) :: env) =
        some (rest.foldl stepC (stepC v p)) := by
      have hlen : idx + (p :: rest).length = idx + 1 + rest.length := by
        simp only [List.length_cons]; omega
      rw [hlen]
      apply ih (idx + 1) _ _ (fun q hq => hvalid q (List.mem_cons_of_mem _ hq))
      · rw [lookup_declared]; simp
      · intro j hj
        rw [lookup_declared, if_neg (fun h => by have := tmp_injective h; omega)]
        exact hfresh j (by omega)
      · exact hfit.2
    have hop : cApplyOp p.1.char v p.2.cValue = some (stepC v p) := by
      rw [← hstepfit]
      unfold stepC
      cases p.1 <;> rfl
    rw [operatorLines, List.cons_append, execC]
    simp only [cOperand, isNumeral_tmp, hnum, hv, hc, hop, declare, hnew, if_true,
      Bool.false_eq_true, if_false, Option.isSome_none, List.foldl_cons]
    exact hnext

/-- C6, as the code has it. Left associativity of the add/sub pipeline: for
every input `n0 op1 n1 ... opk nk`, each `n` a string of digits that is a C
integer constant of type `int` (read in base eight when it begins with `0`,
in base ten otherwise) with optional white space around it and each `op` one
of `+` and `-`, `gen_c(parse_tokens(input))` returns a program text, and when
the partial results are in the range of `int` running this text as C computes
the left fold `((n0 op1 n1) op2 n2) ... opk nk` of the values that C gives
the numerals.  When no `n` begins with `0` (unless it is `0`) this is the left
fold of the numbers that the digits denote in base ten. -/
theorem add_sub_left_associative_in_C (n0 : Operand) (rest : List (AddOp × Operand))
    (h0 : n0.cValid = true) (hrest : ∀ p ∈ rest, p.2.cValid = true)
    (hfit : partialsFitInt n0.cValue rest = true) :
    ∃ tokens text, parse_tokens (expression n0 rest) = some tokens ∧
      gen_c tokens = some text ∧
      (parseProgram text).bind runProgramC = some (leftFoldC n0 rest) ∧
      (n0.decimalForm = true → (∀ p ∈ rest, p.2.decimalForm = true) →
        leftFoldC n0 rest = leftFold n0 rest) := by
  obtain ⟨hv0, hnum, hc0⟩ := cConstant_of_cValid n0 h0
  have hvrest : ∀ p ∈ rest, p.2.valid = true :=
    fun p hp => (cConstant_of_cValid p.2 (hrest p hp)).1
  have hbuf := compileBuf_expression n0 rest hv0 hvrest
  unfold compileBuf at hbuf
  rw [parse_tokens_expression n0 rest hv0 hvrest] at hbuf
  simp only at hbuf
  refine ⟨_, _, parse_tokens_expression n0 rest hv0 hvrest, by rw [gen_c, hbuf]; rfl, ?_, ?_⟩
  · have hatomic : ∀ d ∈ Stmt.header :: Stmt.binop (tmp 0) "0".toList '+' n0.digits ::
        (operatorLines 0 rest ++ [Stmt.ret (tmp rest.length), Stmt.footer]),
        d.atomic = true := by
      intro d hd
      simp only [List.mem_cons, List.mem_append, List.mem_singleton, List.not_mem_nil,
        or_false] at hd
      rcases hd with rfl | rfl | hd | rfl | rfl
      · rfl
      · simp only [Stmt.atomic, isAtom_tmp, isAtom_of_isNumeral _ hnum, Bool.and_true,
          Bool.true_and]
        decide
      · exact atomic_operatorLines rest 0 hvrest d hd
      · exact isAtom_tmp _
      · rfl
    rw [parseProgram_bufString _ hatomic, Option.some_bind]
    have hzero : isNumeral "0".toList = true := by decide
    have hval : cConstant "0".toList = some 0 := by decide
    have hfirst : cApplyOp '+' 0 n0.cValue = some n0.cValue := by
      have := cConstant_fits hc0
      simp only [cApplyOp, if_true, Int.zero_add]
      exact this
    have hrun := execC_operatorLines rest 0 [(tmp 0, n0.cValue)] n0.cValue hrest
      (by rw [lookup_declared]; simp)
      (fun j hj => by
        rw [lookup_declared, if_neg (fun h => by have := tmp_injective h; omega)]
        rfl)
      hfit
    rw [Nat.zero_add] at hrun
    simp only [runProgramC, execC, cOperand, hzero, hnum, hval, hc0, hfirst, declare, if_true,
      List.lookup, Option.isSome_none, Bool.false_eq_true, if_false]
    exact hrun
  · intro hd0 hdrest
    unfold leftFoldC leftFold
    rw [cValue_of_decimalForm n0 h0 hd0]
    have hfold : ∀ (l : List (AddOp × Operand)) (a : Int),
        (∀ p ∈ l, p.2.cValid = true) → (∀ p ∈ l, p.2.decimalForm = true) →
        l.foldl stepC a = l.foldl
          (fun acc p =>
            match p.1 with
            | .plus => acc + (numeralValue p.2.digits : Int)
            | .minus => acc - (numeralValue p.2.digits : Int)) a := by
      intro l
      induction l with
      | nil => intro a _ _; rfl
      | cons q l ih =>
        intro a hq hdq
        rw [List.foldl_cons, List.foldl_cons,
          ih _ (fun x hx => hq x (List.mem_cons_of_mem _ hx))
            (fun x hx => hdq x (List.mem_cons_of_mem _ hx))]
        congr 1
        unfold stepC
        rw [cValue_of_decimalForm q.2 (hq q (List.mem_cons_self _ _))
          (hdq q (List.mem_cons_self _ _))]
    exact hfold rest _ hrest hdrest

/-- Witness of the corrected C6: the input `8-3-2` computes 3 (and not 7). -/
theorem add_sub_left_associative_in_C_witness :
    expression ⟨[], "8".toList, []⟩
      [(AddOp.minus, ⟨[], "3".toList, []⟩), (AddOp.minus, ⟨[], "2".toList, []⟩)] = "8-3-2".toList ∧
    leftFoldC ⟨[], "8".toList, []⟩
      [(AddOp.minus, ⟨[], "3".toList, []⟩), (AddOp.minus, ⟨[], "2".toList, []⟩)] = 3 ∧
    leftFold ⟨[], "8".toList, []⟩
      [(AddOp.minus, ⟨[], "3".toList, []⟩), (AddOp.minus, ⟨[], "2".toList, []⟩)] = 3 ∧
    ∃ tokens text, parse_tokens (expression ⟨[], "8".toList, []⟩
        [(AddOp.minus, ⟨[], "3".toList, []⟩), (AddOp.minus, ⟨[], "2".toList, []⟩)]) = some tokens ∧
      gen_c tokens = some text ∧
      (parseProgram text).bind runProgramC = some (leftFoldC ⟨[], "8".toList, []⟩
        [(AddOp.minus, ⟨[], "3".toList, []⟩), (AddOp.minus, ⟨[], "2".toList, []⟩)]) ∧
      ((⟨[], "8".toList, []⟩ : Operand).decimalForm = true →
        (∀ p ∈ [(AddOp.minus, (⟨[], "3".toList, []⟩ : Operand)),
          (AddOp.minus, ⟨[], "2".toList, []⟩)], p.2.decimalForm = true) →
        leftFoldC ⟨[], "8".toList, []⟩
          [(AddOp.minus, ⟨[], "3".toList, []⟩), (AddOp.minus, ⟨[], "2".toList, []⟩)] =
        leftFold ⟨[], "8".toList, []⟩
          [(AddOp.minus, ⟨[], "3".toList, []⟩), (AddOp.minus, ⟨[], "2".toList, []⟩)]) :=
  ⟨by decide, by decide, by decide,
    add_sub_left_associative_in_C ⟨[], "8".toList, []⟩
      [(AddOp.minus, ⟨[], "3".toList, []⟩), (AddOp.minus, ⟨[], "2".toList, []⟩)]
      (by decide) (by decide) (by decide)⟩

/-- C6 as stated fails on the input `010-1`, whose operands are non-empty
strings of digits: the program is `int t0 = 0 + 010; int t1 = t0 - 1;`, where
C reads `010` in base eight, so it computes 7 and not the left fold 9.  On
`09-1` the text is not a C program (`09` has the digit 9 in base eight), and
on `2147483647+1` the addition overflows `int`, so neither computes the left
fold. -/
theorem add_sub_octal_numeral :
    (⟨[], "010".toList, []⟩ : Operand).valid = true ∧
    (⟨[], "1".toList, []⟩ : Operand).valid = true ∧
    expression ⟨[], "010".toList, []⟩ [(AddOp.minus, ⟨[], "1".toList, []⟩)] = "010-1".toList ∧
    leftFold ⟨[], "010".toList, []⟩ [(AddOp.minus, ⟨[], "1".toList, []⟩)] = 9 ∧
    compileText "010-1".toList =
      some "int main() \x7b\n\tint t0 = 0 + 010;\n\tint t1 = t0 - 1;\n\treturn t1;\n\x7d\n".toList ∧
    ((compileText "010-1".toList).bind parseProgram).bind runProgramC = some 7 ∧
    (⟨[], "09".toList, []⟩ : Operand).valid = true ∧
    expression ⟨[], "09".toList, []⟩ [(AddOp.minus, ⟨[], "1".toList, []⟩)] = "09-1".toList ∧
    leftFold ⟨[], "09".toList, []⟩ [(AddOp.minus, ⟨[], "1".toList, []⟩)] = 8 ∧
    compileText "09-1".toList =
      some "int main() \x7b\n\tint t0 = 0 + 09;\n\tint t1 = t0 - 1;\n\treturn t1;\n\x7d\n".toList ∧
    ((compileText "09-1".toList).bind parseProgram).bind runProgramC = none ∧
    (⟨[], "2147483647".toList, []⟩ : Operand).valid = true ∧
    expression ⟨[], "2147483647".toList, []⟩ [(AddOp.plus, ⟨[], "1".toList, []⟩)] =
      "2147483647+1".toList ∧
    leftFold ⟨[], "2147483647".toList, []⟩ [(AddOp.plus, ⟨[], "1".toList, []⟩)] = 2147483648 ∧
    ((compileText "2147483647+1".toList).bind parseProgram).bind runProgramC = none := by
  decide

/-! ## A leading `-` -/

/-- C7, as the code has it. For the input `-5+2` nothing lowers a unary
negation: the tokens are `-`, `5`, `+`, `2`, the leading `-` is written as the
operand of `int t0 = 0 + -;`, the `5` is dropped, and the program returns
`t1 = t0 + 2`.  The subtraction from zero is generated only when it is
written as a binary operation: for `0-5+2` the declarations are
`t0 = 0 + 0`, `t1 = t0 - 5`, `t2 = t1 + 2` and the program computes -3. -/
theorem gen_c_leading_minus :
    parse_tokens "-5+2".toList = some ["-".toList, "5".toList, "+".toList, "2".toList] ∧
    gen_c ["-".toList, "5".toList, "+".toList, "2".toList] =
      some "int main() \x7b\n\tint t0 = 0 + -;\n\tint t1 = t0 + 2;\n\treturn t1;\n\x7d\n".toList ∧
    compileText "0-5+2".toList =
      some ("int main() \x7b\n\tint t0 = 0 + 0;\n\tint t1 = t0 - 5;\n\tint t2 = t1 + 2;\n" ++
        "\treturn t2;\n\x7d\n").toList ∧
    (compileText "0-5+2".toList).bind parseProgram =
      some [Stmt.header, Stmt.binop "t0".toList "0".toList '+' "0".toList,
        Stmt.binop "t1".toList "t0".toList '-' "5".toList,
        Stmt.binop "t2".toList "t1".toList '+' "2".toList,
        Stmt.ret "t2".toList, Stmt.footer] ∧
    ((compileText "0-5+2".toList).bind parseProgram).bind runProgram = some (-3) := by
  refine ⟨by decide, by decide, by decide, by decide, by decide⟩

/-- C7 as stated fails: the program written for `-5+2` has the two
declarations `t0 = 0 + -` and `t1 = t0 + 2`; neither subtracts, the operand 5
occurs in neither, and the program has no value (its first declaration has
the operand `-`), so it does not compute -3. -/
theorem gen_c_no_negation_lowering :
    compileText "-5+2".toList =
      some "int main() \x7b\n\tint t0 = 0 + -;\n\tint t1 = t0 + 2;\n\treturn t1;\n\x7d\n".toList ∧
    (compileText "-5+2".toList).bind parseProgram =
      some [Stmt.header, Stmt.binop "t0".toList "0".toList '+' "-".toList,
        Stmt.binop "t1".toList "t0".toList '+' "2".toList,
        Stmt.ret "t1".toList, Stmt.footer] ∧
    (∀ prog, (compileText "-5+2".toList).bind parseProgram = some prog →
      ∀ d ∈ prog, ∀ id lhs rhs, d ≠ Stmt.binop id lhs '-' rhs) ∧
    ((compileText "-5+2".toList).bind parseProgram).bind runProgram = none ∧
    ((compileText "-5+2".toList).bind parseProgram).bind runProgram ≠ some (-3) := by
  have h : (compileText "-5+2".toList).bind parseProgram =
      some [Stmt.header, Stmt.binop "t0".toList "0".toList '+' "-".toList,
        Stmt.binop "t1".toList "t0".toList '+' "2".toList,
        Stmt.ret "t1".toList, Stmt.footer] := by decide
  refine ⟨by decide, h, ?_, by decide, by decide⟩
  intro prog hprog d hd id lhs rhs
  rw [h] at hprog
  cases hprog
  simp only [List.mem_cons, List.mem_singleton, List.not_mem_nil, or_false] at hd
  rcases hd with rfl | rfl | rfl | rfl | rfl <;> simp

/-! ## The drivers and a failing toolchain -/

/-- The driver of 04-lex-parser-v2 stops when the toolchain reports an error:
the process exits with status 1 and the artifact is not executed. -/
theorem LexParserV2_run_of_toolchain_failure (host : Host) (node : ExprNode)
    (h : (host.toolchain (Compiler.new.GenC node)).err ≠ none) :
    executesArtifact (LexParserV2.run host node).1 = false ∧
    (LexParserV2.run host node).2 = Outcome.exited 1 := by
  unfold LexParserV2.run LexParserV2.compile
  cases he : (host.toolchain (Compiler.new.GenC node)).err with
  | none => exact absurd he h
  | some e => simp [he, executesArtifact]

/-- The drivers of 01-add-sub and 03-lex-parser execute the artifact whatever
the toolchain reports. -/
theorem run_executes_artifact_always (host : Host) :
    (∀ code tokens output, parse_tokens code = some tokens → gen_c tokens = some output →
      executesArtifact (AddSub.run host code).1 = true) ∧
    (∀ node, executesArtifact (LexParser.run host node).1 = true) := by
  constructor
  · intro code tokens output ht ho
    simp [AddSub.run, AddSub.compile, ht, ho, executesArtifact]
  · intro node
    simp [LexParser.run, LexParser.compile, executesArtifact]

/-- C9 on the code. With a toolchain that rejects the program, `run` of
01-add-sub on the input `-5+2` (whose program `int t0 = 0 + -;` is not valid
C) and `run` of 03-lex-parser on the tree of `1+2*(3+4)` still execute
`./a.out` and return the status of that older artifact; `run` of
04-lex-parser-v2 prints the diagnostic, exits with status 1 and executes
nothing. -/
theorem run_after_toolchain_failure :
    AddSub.run (failingHost "error".toList 7) "-5+2".toList =
      ([Event.writeFile "a.out.c".toList
          "int main() \x7b\n\tint t0 = 0 + -;\n\tint t1 = t0 + 2;\n\treturn t1;\n\x7d\n".toList,
        Event.gcc "a.out.c".toList, Event.execArtifact "./a.out".toList],
       Outcome.returned 7) ∧
    LexParser.run (failingHost "error".toList 7) LexParser.tree_1_add_2_mul_3_add_4 =
      ([Event.writeFile "a.out.c".toList
          (LexParser.Compiler.new.GenC LexParser.tree_1_add_2_mul_3_add_4),
        Event.gcc "a.out.c".toList, Event.execArtifact "./a.out".toList],
       Outcome.returned 7) ∧
    LexParserV2.run (failingHost "error".toList 7) tree_1_add_2_mul_3_add_4 =
      ([Event.writeFile "a.out.c".toList (Compiler.new.GenC tree_1_add_2_mul_3_add_4),
        Event.gcc "a.out.c".toList, Event.print "error".toList],
       Outcome.exited 1) := by
  refine ⟨by decide, by decide, by decide⟩

/-! ## The lowering of an operator node -/

theorem opChar_of_mem {ty : TokenType} {c : Char}
    (h : (ty, c) ∈ [(ADD, '+'), (SUB, '-'), (MUL, '*'), (DIV, '/')]) : opChar ty = some c := by
  simp only [List.mem_cons, Prod.mk.injEq, List.mem_singleton, List.not_mem_nil, or_false] at h
  rcases h with ⟨rfl, rfl⟩ | ⟨rfl, rfl⟩ | ⟨rfl, rfl⟩ | ⟨rfl, rfl⟩ <;> decide

/-- C10. Binary-node lowering in `genValue`: for a node whose token type is
`ADD`, `SUB`, `MUL` or `DIV`, with two well-formed children and the counter at
`n` on entry, the call on the left child returns `t<n+1>`, the call on the
right child returns `t<n+1+size(left)>`, and the node writes the lines of the
left subtree, then those of the right subtree, then the single line
`int t<n> = t<n+1> <op> t<n+1+size(left)>;` with the matching operator, and
returns `t<n>`. -/
theorem genValue_operator_node (tok : Token) (l r : ExprNode) (n : Nat) (w : List Stmt)
    (c : Char) (hop : (tok.Typ, c) ∈ [(ADD, '+'), (SUB, '-'), (MUL, '*'), (DIV, '/')])
    (hl : l.wellFormed = true) (hr : r.wellFormed = true) :
    Compiler.genValue l (Compiler.mk (n + 1)) w =
      (tmp (n + 1), Compiler.mk (n + 1 + l.size), w ++ emitted l (n + 1)) ∧
    Compiler.genValue r (Compiler.mk (n + 1 + l.size)) (w ++ emitted l (n + 1)) =
      (tmp (n + 1 + l.size), Compiler.mk (n + 1 + l.size + r.size),
        w ++ emitted l (n + 1) ++ emitted r (n + 1 + l.size)) ∧
    Compiler.genValue (.node tok l r) (Compiler.mk n) w =
      (tmp n, Compiler.mk (n + 1 + l.size + r.size),
        w ++ emitted l (n + 1) ++ emitted r (n + 1 + l.size) ++
          [Stmt.binop (tmp n) (tmp (n + 1)) c (tmp (n + 1 + l.size))]) ∧
    (Stmt.binop (tmp n) (tmp (n + 1)) c (tmp (n + 1 + l.size))).text =
      "\tint ".toList ++ tmp n ++ " = ".toList ++ tmp (n + 1) ++ [' ', c, ' '] ++
        tmp (n + 1 + l.size) ++ ";\n".toList := by
  have hc := opChar_of_mem hop
  have hL := genValue_wellFormed l (n + 1) w hl
  have hR := genValue_wellFormed r (n + 1 + l.size) (w ++ emitted l (n + 1)) hr
  refine ⟨hL, hR, ?_, rfl⟩
  rw [genValue_node, hc]
  simp only [Compiler.genId]
  rw [hL]
  simp only
  rw [hR]

/-- Witness of C10: the node of `1+2` with the counter at 5. -/
theorem genValue_operator_node_witness :
    (num "1").wellFormed = true ∧ (num "2").wellFormed = true ∧
    emitted (num "1") 6 = [Stmt.assign "t6".toList "1".toList] ∧
    emitted (num "2") 7 = [Stmt.assign "t7".toList "2".toList] ∧
    Compiler.genValue (.node (Token.mk ADD "+".toList 0) (num "1") (num "2")) (Compiler.mk 5) [] =
      (tmp 5, Compiler.mk (5 + 1 + (num "1").size + (num "2").size),
        [] ++ emitted (num "1") (5 + 1) ++ emitted (num "2") (5 + 1 + (num "1").size) ++
          [Stmt.binop (tmp 5) (tmp (5 + 1)) '+' (tmp (5 + 1 + (num "1").size))]) :=
  ⟨by decide, by decide, by decide, by decide,
    (genValue_operator_node (Token.mk ADD "+".toList 0) (num "1") (num "2") 5 [] '+'
      (by decide) (by decide) (by decide)).2.2.1⟩

/-! ## The program wrapper of `GenC` -/

/-- Every line that `genValue` writes is a declaration, whatever the tree. -/
theorem genValue_writes_declarations (t : ExprNode) : ∀ (p : Compiler),
    ∀ d ∈ (Compiler.genValue t p []).2.2, ∃ x, d.declId = some x := by
  induction t with
  | nil => intro p d hd; simp [Compiler.genValue] at hd
  | node tok l r ihl ihr =>
    intro p d hd
    rw [genValue_node] at hd
    cases hc : opChar tok.Typ with
    | none =>
      rw [hc] at hd
      simp only [List.nil_append, List.mem_singleton] at hd
      exact ⟨_, by rw [hd]; rfl⟩
    | some c =>
      rw [hc] at hd
      simp only at hd
      rw [genValue_append r, List.mem_append, List.mem_append, List.mem_singleton] at hd
      rcases hd with (hd | hd) | hd
      · exact ihl _ d hd
      · exact ihr _ d hd
      · exact ⟨_, by rw [hd]; rfl⟩

/-- C11. Program wrapper of `GenC`: for every tree (a non-nil one in
particular) and every `Compiler` the returned text is the line `int main() {`,
then the lines that `genValue` writes, all of them declarations, then the line
`<TAB>return <id>;` with the id that `genValue` returned for the root, then
the line `}`.  For a single `NUMBER` leaf with text `v` and a fresh `Compiler`
the text is the four lines `int main() {`, `<TAB>int t0 = v;`,
`<TAB>return t0;`, `}`; so it is for `v = 42`. -/
theorem GenC_wrapper (p : Compiler) (node : ExprNode) :
    (Compiler.genValue node p [Stmt.header]).2.2 =
      Stmt.header :: (Compiler.genValue node p []).2.2 ∧
    (∀ d ∈ (Compiler.genValue node p []).2.2, ∃ x, d.declId = some x) ∧
    (p.GenCBuf node).1 =
      Stmt.header :: ((Compiler.genValue node p []).2.2 ++
        [Stmt.ret (Compiler.genValue node p []).1, Stmt.footer]) ∧
    p.GenC node =
      "int main() \x7b\n".toList ++ bufString (Compiler.genValue node p []).2.2 ++
        ("\treturn ".toList ++ (Compiler.genValue node p []).1 ++ ";\n".toList) ++
        "\x7d\n".toList ∧
    (∀ (v : Str) (pos : Int),
      Compiler.new.GenC (.node (Token.mk NUMBER v pos) .nil .nil) =
        "int main() \x7b\n\tint t0 = ".toList ++ v ++ ";\n\treturn t0;\n\x7d\n".toList) ∧
    Compiler.new.GenC (num "42") =
      "int main() \x7b\n\tint t0 = 42;\n\treturn t0;\n\x7d\n".toList := by
  have hbuf : (p.GenCBuf node).1 =
      Stmt.header :: ((Compiler.genValue node p []).2.2 ++
        [Stmt.ret (Compiler.genValue node p []).1, Stmt.footer]) := by
    unfold Compiler.GenCBuf
    simp only
    rw [genValue_append node p [Stmt.header]]
    simp
  refine ⟨?_, genValue_writes_declarations node p, hbuf, ?_, ?_, by decide⟩
  · rw [genValue_append node p [Stmt.header]]
    rfl
  · unfold Compiler.GenC
    rw [hbuf]
    simp [bufString, Stmt.text]
  · intro v pos
    unfold Compiler.GenC Compiler.GenCBuf Compiler.new
    have hleaf : opChar NUMBER = none := by decide
    simp only
    rw [genValue_node, hleaf]
    have ht : tmp 0 = "t0".toList := by decide
    simp [Compiler.genId, bufString, Stmt.text, ht]

/-! ## The two code generators -/

/-- The four operator cases of `genValue` of 03-lex-parser are one case up to
the operator character. -/
theorem LexParser_genValue_node (value : Str) (l r : LexParser.ExprNode)
    (p : LexParser.Compiler) (w : List Stmt) :
    LexParser.Compiler.genValue (.node value l r) p w =
      match valueOpChar value with
      | some c =>
        ((p.genId).1,
         (LexParser.Compiler.genValue r (LexParser.Compiler.genValue l (p.genId).2 w).2.1
            (LexParser.Compiler.genValue l (p.genId).2 w).2.2).2.1,
         (LexParser.Compiler.genValue r (LexParser.Compiler.genValue l (p.genId).2 w).2.1
            (LexParser.Compiler.genValue l (p.genId).2 w).2.2).2.2 ++
           [Stmt.binop (p.genId).1 (LexParser.Compiler.genValue l (p.genId).2 w).1 c
             (LexParser.Compiler.genValue r (LexParser.Compiler.genValue l (p.genId).2 w).2.1
                (LexParser.Compiler.genValue l (p.genId).2 w).2.2).1])
      | none => ((p.genId).1, (p.genId).2, w ++ [Stmt.assign (p.genId).1 value]) := by
  unfold valueOpChar
  rw [LexParser.Compiler.genValue]
  split_ifs with h1 h2 h3 h4 <;> rfl

theorem opChar_eq_valueOpChar (tok : Token) (h : typeMatchesVal tok = true) :
    opChar tok.Typ = valueOpChar tok.Val := by
  simp only [typeMatchesVal, decide_eq_true_eq] at h
  obtain ⟨h1, h2, h3, h4⟩ := h
  unfold opChar valueOpChar
  by_cases a1 : tok.Typ = ADD
  · rw [if_pos a1, if_pos (h1.1 a1)]
  · rw [if_neg a1, if_neg (fun hv => a1 (h1.2 hv))]
    by_cases a2 : tok.Typ = SUB
    · rw [if_pos a2, if_pos (h2.1 a2)]
    · rw [if_neg a2, if_neg (fun hv => a2 (h2.2 hv))]
      by_cases a3 : tok.Typ = MUL
      · rw [if_pos a3, if_pos (h3.1 a3)]
      · rw [if_neg a3, if_neg (fun hv => a3 (h3.2 hv))]
        by_cases a4 : tok.Typ = DIV
        · rw [if_pos a4, if_pos (h4.1 a4)]
        · rw [if_neg a4, if_neg (fun hv => a4 (h4.2 hv))]

/-- On matching trees the two `genValue` return the same id, leave the same
counter and write the same lines. -/
theorem genValue_toLexParser (t : ExprNode) : ∀ (n : Nat) (w : List Stmt),
    t.typesMatchVals = true →
    LexParser.Compiler.genValue (toLexParser t) (LexParser.Compiler.mk n) w =
      ((Compiler.genValue t (Compiler.mk n) w).1,
        LexParser.Compiler.mk (Compiler.genValue t (Compiler.mk n) w).2.1.nextId,
        (Compiler.genValue t (Compiler.mk n) w).2.2) := by
  induction t with
  | nil => intro n w _; rfl
  | node tok l r ihl ihr =>
    intro n w h
    simp only [ExprNode.typesMatchVals, Bool.and_eq_true] at h
    rw [toLexParser, LexParser_genValue_node, genValue_node, opChar_eq_valueOpChar tok h.1.1]
    cases valueOpChar tok.Val with
    | none => rfl
    | some c =>
      simp only [LexParser.Compiler.genId, Compiler.genId]
      rw [ihl (n + 1) w h.1.2]
      simp only
      rw [ihr _ _ h.2]

/-- C14. The two code generators are equivalent: for every tree of
04-lex-parser-v2 in which a node has `Token.Type` `ADD`, `SUB`, `MUL`, `DIV`
exactly when its `Token.Val` is `+`, `-`, `*`, `/` respectively, `GenC` of
04-lex-parser-v2 and `GenC` of 03-lex-parser on the tree of the same shape
whose `Value` fields are the `Token.Val` texts return the same text, each on
a fresh `Compiler` (and on compilers with the same counter in general). -/
theorem GenC_eq_LexParser_GenC (t : ExprNode) (h : t.typesMatchVals = true) :
    Compiler.new.GenC t = LexParser.Compiler.new.GenC (toLexParser t) ∧
    ∀ n : Nat, (Compiler.mk n).GenC t = (LexParser.Compiler.mk n).GenC (toLexParser t) := by
  have hn : ∀ n : Nat,
      (Compiler.mk n).GenC t = (LexParser.Compiler.mk n).GenC (toLexParser t) := by
    intro n
    unfold Compiler.GenC LexParser.Compiler.GenC Compiler.GenCBuf LexParser.Compiler.GenCBuf
    simp only
    rw [genValue_toLexParser t n [Stmt.header] h]
  exact ⟨hn 0, hn⟩

/-- Witness of C14 on the tree of `1+2*(3+4)`, the `code` of 03-lex-parser. -/
theorem GenC_eq_LexParser_GenC_witness :
    tree_1_add_2_mul_3_add_4.typesMatchVals = true ∧
    toLexParser tree_1_add_2_mul_3_add_4 = LexParser.tree_1_add_2_mul_3_add_4 ∧
    Compiler.new.GenC tree_1_add_2_mul_3_add_4 =
      LexParser.Compiler.new.GenC (toLexParser tree_1_add_2_mul_3_add_4) ∧
    Compiler.new.GenC tree_1_add_2_mul_3_add_4 =
      ("int main() \x7b\n\tint t1 = 1;\n\tint t3 = 2;\n\tint t5 = 3;\n\tint t6 = 4;\n" ++
        "\tint t4 = t5 + t6;\n\tint t2 = t3 * t4;\n\tint t0 = t1 + t2;\n" ++
        "\treturn t0;\n\x7d\n").toList :=
  ⟨by decide, by decide, (GenC_eq_LexParser_GenC tree_1_add_2_mul_3_add_4 (by decide)).1,
    by decide⟩

/-! ## The counter of a `Compiler` -/

/-- The lines and the compiler after `GenC` on a well-formed tree, the counter
being `m` on entry. -/
theorem GenCBuf_of_counter (t : ExprNode) (m : Nat) (hwf : t.wellFormed = true) :
    (Compiler.mk m).GenCBuf t =
      (Stmt.header :: (emitted t m ++ [Stmt.ret (tmp m), Stmt.footer]),
        Compiler.mk (m + t.size)) := by
  unfold Compiler.GenCBuf
  simp only
  rw [genValue_wellFormed t m [Stmt.header] hwf]
  simp

theorem declaredIds_GenCBuf_of_counter (t : ExprNode) (m : Nat) (hwf : t.wellFormed = true) :
    declaredIds ((Compiler.mk m).GenCBuf t).1 = declaredIds (emitted t m) := by
  rw [GenCBuf_of_counter t m hwf, declaredIds_cons, declaredIds_append]
  simp [declaredIds, Stmt.declId]

/-- C15. Counter threading in `genValue`: on a well-formed tree with `k` nodes
and the counter at `n`, `genValue` returns `t<n>`, leaves the counter at
`n + k` and declares exactly the ids `t<n>, ..., t<n+k-1>`, each once; on a
nil node it returns the empty string, writes nothing and leaves the counter
as it is.  So `GenC` on a fresh `Compiler` leaves the counter at `k`, a second
`GenC` on the same `Compiler` returns `t<k>` and declares
`t<k>, ..., t<k+k2-1>`, and `GenC` returns `t0` only when the counter is 0. -/
theorem genValue_counter_threading (t t2 : ExprNode) (n : Nat) (w : List Stmt)
    (hwf : t.wellFormed = true) (hwf2 : t2.wellFormed = true) :
    Compiler.genValue t (Compiler.mk n) w =
      (tmp n, Compiler.mk (n + t.size), w ++ emitted t n) ∧
    (declaredIds (emitted t n)).Perm ((List.range' n t.size).map tmp) ∧
    (declaredIds (emitted t n)).Nodup ∧
    (∀ (p : Compiler) (w1 : List Stmt), Compiler.genValue .nil p w1 = ([], p, w1)) ∧
    (Compiler.new.GenCBuf t).2 = Compiler.mk t.size ∧
    ((Compiler.new.GenCBuf t).2.GenCBuf t2).1 =
      Stmt.header :: (emitted t2 t.size ++ [Stmt.ret (tmp t.size), Stmt.footer]) ∧
    returned ((Compiler.new.GenCBuf t).2.GenCBuf t2).1 = some (tmp t.size) ∧
    (declaredIds ((Compiler.new.GenCBuf t).2.GenCBuf t2).1).Perm
      ((List.range' t.size t2.size).map tmp) ∧
    (∀ m : Nat, returned ((Compiler.mk m).GenCBuf t).1 = some (tmp m)) ∧
    (∀ m : Nat, returned ((Compiler.mk m).GenCBuf t).1 = some (tmp 0) ↔ m = 0) ∧
    (∀ m : Nat, tmp 0 ∈ declaredIds ((Compiler.mk m).GenCBuf t).1 ↔ m = 0) := by
  have hperm := declaredIds_emitted t n hwf
  have hfirst : (Compiler.new.GenCBuf t).2 = Compiler.mk t.size := by
    unfold Compiler.new
    rw [GenCBuf_of_counter t 0 hwf, Nat.zero_add]
  have hret : ∀ (u : ExprNode) (m : Nat), u.wellFormed = true →
      returned ((Compiler.mk m).GenCBuf u).1 = some (tmp m) := by
    intro u m hu
    rw [GenCBuf_of_counter u m hu]
    show returned (emitted u m ++ [Stmt.ret (tmp m), Stmt.footer]) = some (tmp m)
    rw [returned_append_of_declarations _ _ (by
      intro d hd
      have := genValue_writes_declarations u (Compiler.mk m) d hd
      exact this)]
    rfl
  refine ⟨genValue_wellFormed t n w hwf, hperm,
    (hperm.nodup_iff).2 (tmp_nodup _ (List.nodup_range' n t.size)), fun p w1 => rfl, hfirst,
    ?_, ?_, ?_, fun m => hret t m hwf, ?_, ?_⟩
  · rw [hfirst, GenCBuf_of_counter t2 t.size hwf2]
  · rw [hfirst]; exact hret t2 t.size hwf2
  · rw [hfirst, declaredIds_GenCBuf_of_counter t2 t.size hwf2]
    exact declaredIds_emitted t2 t.size hwf2
  · intro m
    rw [hret t m hwf]
    constructor
    · intro h; exact tmp_injective (Option.some.inj h)
    · intro h; rw [h]
  · intro m
    rw [declaredIds_GenCBuf_of_counter t m hwf, (declaredIds_emitted t m hwf).mem_iff,
      List.mem_map]
    constructor
    · rintro ⟨j, hj, hjt⟩
      have h0 := tmp_injective hjt
      have := (List.mem_range'_1.1 hj).1
      omega
    · intro h
      refine ⟨0, List.mem_range'_1.2 ⟨by omega, ?_⟩, rfl⟩
      have := size_pos_of_wellFormed t hwf
      omega

/-- Witness of C15: `GenC` twice on the tree of `1+2`, which has three nodes;
the second program is numbered from `t3`. -/
theorem genValue_counter_threading_witness :
    tree_1_add_2.wellFormed = true ∧ tree_1_add_2.size = 3 ∧
    ((Compiler.new.GenCBuf tree_1_add_2).2.GenCBuf tree_1_add_2).1 =
      Stmt.header :: (emitted tree_1_add_2 tree_1_add_2.size ++
        [Stmt.ret (tmp tree_1_add_2.size), Stmt.footer]) ∧
    (Compiler.new.GenCBuf tree_1_add_2).2.GenC tree_1_add_2 =
      "int main() \x7b\n\tint t4 = 1;\n\tint t5 = 2;\n\tint t3 = t4 + t5;\n\treturn t3;\n\x7d\n".toList :=
  ⟨by decide, by decide,
    (genValue_counter_threading tree_1_add_2 tree_1_add_2 0 [] (by decide) (by decide)).2.2.2.2.2.1,
    by decide⟩

/-! ## The instruction list of `gen_c` -/

/-- The loop of `gen_c` over `op1, n1, ..., opm, nm` when no operand is `+` or
`-`: one line for each operator, none for the operands. -/
theorem gen_c_loop_alternatingTokens (rest : List (AddOp × Str)) :
    ∀ (tokens pre : List Str) (idx : Nat) (buf : List Stmt),
    tokens = pre ++ alternatingTokens rest → 0 < pre.length →
    (∀ p ∈ rest, p.2 ≠ "+".toList ∧ p.2 ≠ "-".toList) →
    gen_c_loop tokens pre.length (alternatingTokens rest) idx buf =
      some (idx + rest.length, buf ++ chainLines idx rest) := by
  induction rest with
  | nil => intro tokens pre idx buf _ _ _; simp [alternatingTokens, gen_c_loop, chainLines]
  | cons p rest ih =>
    intro tokens pre idx buf htok hpre hvalid
    obtain ⟨hne1, hne2⟩ := hvalid p (List.mem_cons_self _ _)
    have hcons : alternatingTokens (p :: rest) = [p.1.char] :: p.2 :: alternatingTokens rest := by
      simp [alternatingTokens]
    rw [hcons] at htok ⊢
    have hget : tokens.get? (pre.length + 1) = some p.2 := by
      have hsplit : pre ++ [p.1.char] :: p.2 :: alternatingTokens rest =
          (pre ++ [[p.1.char]]) ++ p.2 :: alternatingTokens rest := by simp
      rw [htok, hsplit, List.get?_eq_getElem?, List.getElem?_append_right (by simp)]
      simp
    have hi : ¬ pre.length = 0 := by omega
    have hi1 : ¬ pre.length + 1 = 0 := by omega
    have hnext := ih tokens (pre ++ [[p.1.char], p.2]) (idx + 1)
      (buf ++ [Stmt.binop (tmp (idx + 1)) (tmp idx) p.1.char p.2])
      (by rw [htok]; simp) (by simp) (fun q hq => hvalid q (List.mem_cons_of_mem _ hq))
    have hlen : (pre ++ [[p.1.char], p.2]).length = pre.length + 1 + 1 := by simp
    rw [hlen] at hnext
    cases hop : p.1 with
    | plus =>
      rw [hop] at hnext
      simp only [AddOp.char] at hnext
      have hc : [AddOp.plus.char] = "+".toList := rfl
      rw [hc]
      rw [gen_c_loop, if_neg hi, if_pos rfl, hget]
      simp only [Nat.add_sub_cancel]
      rw [gen_c_loop, if_neg hi1, if_neg hne1, if_neg hne2, hnext]
      clear hlen hnext
      simp [chainLines, hop, AddOp.char]
      omega
    | minus =>
      rw [hop] at hnext
      simp only [AddOp.char] at hnext
      have hc : [AddOp.minus.char] = "-".toList := rfl
      rw [hc]
      rw [gen_c_loop, if_neg hi, if_neg (by decide), if_pos rfl, hget]
      simp only [Nat.add_sub_cancel]
      rw [gen_c_loop, if_neg hi1, if_neg hne1, if_neg hne2, hnext]
      clear hlen hnext
      simp [chainLines, hop, AddOp.char]
      omega

theorem declaredIds_chainLines (rest : List (AddOp × Str)) : ∀ idx : Nat,
    declaredIds (chainLines idx rest) = (List.range' (idx + 1) rest.length).map tmp := by
  induction rest with
  | nil => intro idx; rfl
  | cons p rest ih =>
    intro idx
    rw [chainLines, declaredIds_cons, ih (idx + 1), List.length_cons, List.range'_succ,
      List.map_cons]
    rfl

theorem getElem_chainLines (rest : List (AddOp × Str)) : ∀ (idx i : Nat) (p : AddOp × Str),
    rest.get? i = some p →
    (chainLines idx rest).get? i =
      some (Stmt.binop (tmp (idx + i + 1)) (tmp (idx + i)) p.1.char p.2) := by
  induction rest with
  | nil => intro idx i p h; simp at h
  | cons q rest ih =>
    intro idx i p h
    cases i with
    | zero =>
      simp only [List.get?_cons_zero, Option.some.injEq] at h
      rw [chainLines, List.get?_cons_zero, h]
      rfl
    | succ i =>
      simp only [List.get?_cons_succ] at h
      rw [chainLines, List.get?_cons_succ, ih (idx + 1) i p h]
      have h1 : idx + 1 + i = idx + (i + 1) := by omega
      rw [h1]

/-- The `Fprintf` calls of `gen_c` on a token list `n0, op1, n1, ..., opm, nm`
with each `op` one of `+` and `-` and no `n1..nm` equal to `+` or `-`: after the
header, one call with `t0`, `0`, `n0`, then for each `i` one call with `t<i>`,
`t<i-1>`, `op_i`, `n_i`, then the call of the `return` line with `t<m>`.  What
the text of these calls declares depends on the operands (see
`atomic_chainLines`). -/
theorem gen_c_calls (n0 : Str) (rest : List (AddOp × Str))
    (hrest : ∀ p ∈ rest, p.2 ≠ "+".toList ∧ p.2 ≠ "-".toList) :
    gen_c_buf (n0 :: alternatingTokens rest) =
      some (Stmt.header :: Stmt.binop (tmp 0) "0".toList '+' n0 ::
        (chainLines 0 rest ++ [Stmt.ret (tmp rest.length), Stmt.footer])) ∧
    gen_c (n0 :: alternatingTokens rest) =
      some (bufString (Stmt.header :: Stmt.binop (tmp 0) "0".toList '+' n0 ::
        (chainLines 0 rest ++ [Stmt.ret (tmp rest.length), Stmt.footer]))) ∧
    declaredIds (Stmt.header :: Stmt.binop (tmp 0) "0".toList '+' n0 ::
        (chainLines 0 rest ++ [Stmt.ret (tmp rest.length), Stmt.footer])) =
      (List.range (rest.length + 1)).map tmp ∧
    (∀ (i : Nat) (p : AddOp × Str), rest.get? i = some p →
      (chainLines 0 rest).get? i =
        some (Stmt.binop (tmp (i + 1)) (tmp i) p.1.char p.2)) ∧
    returned (Stmt.header :: Stmt.binop (tmp 0) "0".toList '+' n0 ::
        (chainLines 0 rest ++ [Stmt.ret (tmp rest.length), Stmt.footer])) =
      some (tmp rest.length) := by
  have hbuf : gen_c_buf (n0 :: alternatingTokens rest) =
      some (Stmt.header :: Stmt.binop (tmp 0) "0".toList '+' n0 ::
        (chainLines 0 rest ++ [Stmt.ret (tmp rest.length), Stmt.footer])) := by
    simp only [gen_c_buf]
    rw [gen_c_loop, if_pos rfl]
    have := gen_c_loop_alternatingTokens rest (n0 :: alternatingTokens rest) [n0] 0
      ([Stmt.header] ++ [Stmt.binop (tmp 0) "0".toList '+' n0]) rfl (by simp) hrest
    simp only [List.length_singleton] at this
    rw [this]
    simp
  refine ⟨hbuf, by rw [gen_c, hbuf]; rfl, ?_, ?_, ?_⟩
  · rw [declaredIds_cons, declaredIds_cons, declaredIds_append, declaredIds_chainLines,
      List.range_eq_range', List.range'_succ]
    simp [declaredIds, Stmt.declId]
  · intro i p hp
    have := getElem_chainLines rest 0 i p hp
    simpa using this
  · have hdecl : ∀ d ∈ chainLines 0 rest, ∃ x, d.declId = some x := by
      intro d hd
      have hall : ∀ (l : List (AddOp × Str)) (idx : Nat), ∀ e ∈ chainLines idx l,
          ∃ x, e.declId = some x := by
        intro l
        induction l with
        | nil => intro idx e he; simp [chainLines] at he
        | cons q l ih =>
          intro idx e he
          rw [chainLines, List.mem_cons] at he
          rcases he with rfl | he
          · exact ⟨_, rfl⟩
          · exact ih (idx + 1) e he
      exact hall rest 0 d hd
    show returned (chainLines 0 rest ++ [Stmt.ret (tmp rest.length), Stmt.footer]) = _
    rw [returned_append_of_declarations _ _ hdecl]
    rfl

theorem atomic_chainLines (rest : List (AddOp × Str)) : ∀ (idx : Nat),
    (∀ p ∈ rest, isNumeral p.2 = true) → ∀ d ∈ chainLines idx rest, d.atomic = true := by
  induction rest with
  | nil => intro idx _ d hd; simp [chainLines] at hd
  | cons p rest ih =>
    intro idx hnum d hd
    have hp := hnum p (List.mem_cons_self _ _)
    have hop : isAtom [p.1.char] = true := by cases p.1 <;> decide
    rw [chainLines, List.mem_cons] at hd
    rcases hd with rfl | hd
    · simp [Stmt.atomic, isAtom_tmp, isAtom_of_isNumeral _ hp, hop]
    · exact ih (idx + 1) (fun q hq => hnum q (List.mem_cons_of_mem _ hq)) d hd

/-- C12, as the code has it. Instruction list of `gen_c`: for every token list
`n0, op1, n1, ..., opm, nm` with each `op` one of `+` and `-` and each `n` a
non-empty string of digits, the text that `gen_c` returns reads back as
exactly the `m+1` declarations `t0, t1, ..., tm` in this order, the first being
`t0 = 0 + n0` and the `i`-th being `t<i> = t<i-1> op_i n_i`, whose only
temporary on the right-hand side is `t<i-1>` (the first has none), and the
`return` line names `t<m>`. -/
theorem gen_c_instruction_list_of_numerals (n0 : Str) (rest : List (AddOp × Str))
    (h0 : isNumeral n0 = true) (hrest : ∀ p ∈ rest, isNumeral p.2 = true) :
    ∃ text, gen_c (n0 :: alternatingTokens rest) = some text ∧
      parseProgram text =
        some (Stmt.header :: Stmt.binop (tmp 0) "0".toList '+' n0 ::
          (chainLines 0 rest ++ [Stmt.ret (tmp rest.length), Stmt.footer])) ∧
      (parseProgram text).map declaredIds = some ((List.range (rest.length + 1)).map tmp) ∧
      (Stmt.binop (tmp 0) "0".toList '+' n0).rhsTemps = [] ∧
      (∀ (i : Nat) (p : AddOp × Str), rest.get? i = some p →
        (chainLines 0 rest).get? i = some (Stmt.binop (tmp (i + 1)) (tmp i) p.1.char p.2) ∧
        (Stmt.binop (tmp (i + 1)) (tmp i) p.1.char p.2).rhsTemps = [tmp i]) ∧
      (parseProgram text).bind returned = some (tmp rest.length) := by
  have hne : ∀ p ∈ rest, p.2 ≠ "+".toList ∧ p.2 ≠ "-".toList :=
    fun p hp => numeral_ne_operator p.2 (hrest p hp)
  obtain ⟨_, htext, hids, hline, hret⟩ := gen_c_calls n0 rest hne
  have hzero : isNumeral "0".toList = true := by decide
  have hatomic : ∀ d ∈ Stmt.header :: Stmt.binop (tmp 0) "0".toList '+' n0 ::
      (chainLines 0 rest ++ [Stmt.ret (tmp rest.length), Stmt.footer]), d.atomic = true := by
    intro d hd
    simp only [List.mem_cons, List.mem_append, List.mem_singleton, List.not_mem_nil,
      or_false] at hd
    rcases hd with rfl | rfl | hd | rfl | rfl
    · rfl
    · simp only [Stmt.atomic, isAtom_tmp, isAtom_of_isNumeral _ h0, Bool.and_true,
        Bool.true_and]
      decide
    · exact atomic_chainLines rest 0 hrest d hd
    · exact isAtom_tmp _
    · rfl
  have hparse := parseProgram_bufString _ hatomic
  refine ⟨_, htext, hparse, ?_, ?_, ?_, ?_⟩
  · rw [hparse, Option.map_some', hids]
  · simp only [Stmt.rhsTemps, List.filter, hzero, h0, Bool.not_true]
  · intro i p hp
    refine ⟨hline i p hp, ?_⟩
    have hnum : isNumeral p.2 = true := hrest p (List.get?_mem hp)
    simp only [Stmt.rhsTemps, List.filter, isNumeral_tmp, hnum, Bool.not_true, Bool.not_false]
  · rw [hparse, Option.some_bind, hret]

/-- Witness of the corrected C12 on the tokens `8`, `-`, `3`, `-`, `2`. -/
theorem gen_c_instruction_list_of_numerals_witness :
    "8".toList :: alternatingTokens [(AddOp.minus, "3".toList), (AddOp.minus, "2".toList)] =
      ["8".toList, "-".toList, "3".toList, "-".toList, "2".toList] ∧
    isNumeral "8".toList = true ∧
    (∀ p ∈ [(AddOp.minus, "3".toList), (AddOp.minus, "2".toList)], isNumeral p.2 = true) ∧
    gen_c ["8".toList, "-".toList, "3".toList, "-".toList, "2".toList] =
      some ("int main() \x7b\n\tint t0 = 0 + 8;\n\tint t1 = t0 - 3;\n\tint t2 = t1 - 2;\n" ++
        "\treturn t2;\n\x7d\n").toList ∧
    ∃ text, gen_c ("8".toList ::
        alternatingTokens [(AddOp.minus, "3".toList), (AddOp.minus, "2".toList)]) = some text ∧
      parseProgram text =
        some (Stmt.header :: Stmt.binop (tmp 0) "0".toList '+' "8".toList ::
          (chainLines 0 [(AddOp.minus, "3".toList), (AddOp.minus, "2".toList)] ++
            [Stmt.ret (tmp [(AddOp.minus, "3".toList), (AddOp.minus, "2".toList)].length),
              Stmt.footer])) :=
  ⟨by decide, by decide, by decide, by decide,
    (gen_c_instruction_list_of_numerals "8".toList
      [(AddOp.minus, "3".toList), (AddOp.minus, "2".toList)] (by decide) (by decide)).imp
      (fun _ h => ⟨h.1, h.2.1⟩)⟩

/-- C12 as stated fails.  On the tokens `1`, `+`, `2`, `+`, `t0`, where no
operand is `+` or `-`, the third declaration is `int t2 = t1 + t0;`: its
right-hand side names `t0`, which is neither the preceding temporary `t1` nor a
literal.  On the tokens `1`, `+`, `2;<NEWLINE><TAB>int t7 = 3`, where `m = 1`, the
text has the three declarations `t0`, `t1`, `t7` and returns `t1`, which is not
the highest id declared. -/
theorem gen_c_operand_not_literal :
    "1".toList :: alternatingTokens [(AddOp.plus, "2".toList), (AddOp.plus, "t0".toList)] =
      ["1".toList, "+".toList, "2".toList, "+".toList, "t0".toList] ∧
    (∀ p ∈ [(AddOp.plus, "2".toList), (AddOp.plus, "t0".toList)],
      p.2 ≠ "+".toList ∧ p.2 ≠ "-".toList) ∧
    gen_c ["1".toList, "+".toList, "2".toList, "+".toList, "t0".toList] =
      some ("int main() \x7b\n\tint t0 = 0 + 1;\n\tint t1 = t0 + 2;\n\tint t2 = t1 + t0;\n" ++
        "\treturn t2;\n\x7d\n").toList ∧
    (gen_c ["1".toList, "+".toList, "2".toList, "+".toList, "t0".toList]).bind parseProgram =
      some [Stmt.header, Stmt.binop "t0".toList "0".toList '+' "1".toList,
        Stmt.binop "t1".toList "t0".toList '+' "2".toList,
        Stmt.binop "t2".toList "t1".toList '+' "t0".toList,
        Stmt.ret "t2".toList, Stmt.footer] ∧
    (Stmt.binop "t2".toList "t1".toList '+' "t0".toList).rhsTemps = ["t1".toList, "t0".toList] ∧
    isNumeral "t0".toList = false ∧
    "1".toList :: alternatingTokens [(AddOp.plus, "2;\n\tint t7 = 3".toList)] =
      ["1".toList, "+".toList, "2;\n\tint t7 = 3".toList] ∧
    "2;\n\tint t7 = 3".toList ≠ "+".toList ∧ "2;\n\tint t7 = 3".toList ≠ "-".toList ∧
    gen_c ["1".toList, "+".toList, "2;\n\tint t7 = 3".toList] =
      some ("int main() \x7b\n\tint t0 = 0 + 1;\n\tint t1 = t0 + 2;\n\tint t7 = 3;\n" ++
        "\treturn t1;\n\x7d\n").toList ∧
    ((gen_c ["1".toList, "+".toList, "2;\n\tint t7 = 3".toList]).bind parseProgram).map
        declaredIds = some ["t0".toList, "t1".toList, "t7".toList] ∧
    ((gen_c ["1".toList, "+".toList, "2;\n\tint t7 = 3".toList]).bind parseProgram).bind
        returned = some "t1".toList := by
  decide

/-! ## When `gen_c` indexes past the end of the tokens -/

theorem endsWithOperatorToken_cons (tok : Str) (a : Str) (rest : List Str) :
    endsWithOperatorToken (tok :: a :: rest) = endsWithOperatorToken (a :: rest) := by
  simp [endsWithOperatorToken]

/-- The loop of `gen_c` fails exactly when the last token is `+` or `-` and
is not the token of index 0. -/
theorem gen_c_loop_eq_none_iff (rest : List Str) :
    ∀ (tokens pre : List Str) (idx : Nat) (buf : List Stmt), tokens = pre ++ rest →
    (gen_c_loop tokens pre.length rest idx buf = none ↔
      (endsWithOperatorToken rest = true ∧ 2 ≤ pre.length + rest.length)) := by
  induction rest with
  | nil => intro tokens pre idx buf _; simp [gen_c_loop, endsWithOperatorToken]
  | cons tok rest ih =>
    intro tokens pre idx buf htok
    have htok1 : tokens = (pre ++ [tok]) ++ rest := by rw [htok]; simp
    have hlen : (pre ++ [tok]).length = pre.length + 1 := by simp
    have hih : ∀ (idx1 : Nat) (buf1 : List Stmt),
        (gen_c_loop tokens (pre.length + 1) rest idx1 buf1 = none ↔
          (endsWithOperatorToken rest = true ∧ 2 ≤ pre.length + 1 + rest.length)) := by
      intro idx1 buf1
      have := ih tokens (pre ++ [tok]) idx1 buf1 htok1
      rw [hlen] at this
      exact this
    have hget : tokens.get? (pre.length + 1) = rest.head? := by
      rw [htok1, List.get?_eq_getElem?, List.getElem?_append_right (by simp)]
      cases rest <;> simp
    cases rest with
    | nil =>
      have hnone : ∀ (idx1 : Nat) (buf1 : List Stmt),
          gen_c_loop tokens (pre.length + 1) [] idx1 buf1 ≠ none := by
        intro idx1 buf1; simp [gen_c_loop]
      simp only [List.head?_nil] at hget
      have hlast : endsWithOperatorToken [tok] = isOperatorToken tok := rfl
      have hlen1 : pre.length + [tok].length = pre.length + 1 := rfl
      rw [gen_c_loop, hlast, hlen1]
      by_cases hi : pre.length = 0
      · rw [if_pos hi]
        constructor
        · intro h; exact absurd h (hnone _ _)
        · rintro ⟨_, h⟩; omega
      · rw [if_neg hi]
        by_cases h1 : tok = "+".toList
        · rw [if_pos h1, hget]
          have hop : isOperatorToken tok = true := by rw [h1]; decide
          exact ⟨fun _ => ⟨hop, by omega⟩, fun _ => rfl⟩
        · rw [if_neg h1]
          by_cases h2 : tok = "-".toList
          · rw [if_pos h2, hget]
            have hop : isOperatorToken tok = true := by rw [h2]; decide
            exact ⟨fun _ => ⟨hop, by omega⟩, fun _ => rfl⟩
          · rw [if_neg h2]
            have hop : isOperatorToken tok = false := by
              unfold isOperatorToken
              exact decide_eq_false (fun h => h.elim h1 h2)
            constructor
            · intro h; exact absurd h (hnone _ _)
            · rintro ⟨h, _⟩; rw [hop] at h; exact absurd h (by decide)
    | cons a rest =>
      simp only [List.head?_cons] at hget
      have hrhs : (endsWithOperatorToken (tok :: a :: rest) = true ∧
            2 ≤ pre.length + (tok :: a :: rest).length) ↔
          (endsWithOperatorToken (a :: rest) = true ∧
            2 ≤ pre.length + 1 + (a :: rest).length) := by
        rw [endsWithOperatorToken_cons]
        simp only [List.length_cons]
        constructor
        · rintro ⟨h1, _⟩; exact ⟨h1, by omega⟩
        · rintro ⟨h1, _⟩; exact ⟨h1, by omega⟩
      rw [hrhs, gen_c_loop]
      by_cases hi : pre.length = 0
      · rw [if_pos hi]; exact hih _ _
      · rw [if_neg hi]
        by_cases h1 : tok = "+".toList
        · rw [if_pos h1, hget]; exact hih _ _
        · rw [if_neg h1]
          by_cases h2 : tok = "-".toList
          · rw [if_pos h2, hget]; exact hih _ _
          · rw [if_neg h2]; exact hih _ _

/-- The panic of `gen_c`: the last token is `+` or `-` and there are at
least two tokens. -/
theorem gen_c_eq_none_iff (tokens : List Str) :
    gen_c tokens = none ↔ (endsWithOperatorToken tokens = true ∧ 2 ≤ tokens.length) := by
  have h := gen_c_loop_eq_none_iff tokens tokens [] 0 [Stmt.header] rfl
  simp only [List.length_nil, Nat.zero_add] at h
  rw [← h]
  unfold gen_c gen_c_buf
  cases gen_c_loop tokens 0 tokens 0 [Stmt.header] with
  | none => simp
  | some r => simp

theorem tokensOf_eq_nil_iff (s : Str) (rest : List (Char × Str)) :
    tokensOf s rest = [] ↔ (s = [] ∧ rest = []) := by
  cases rest with
  | nil =>
    by_cases h0 : s = []
    · simp [tokensOf, segmentTokens, h0]
    · simp [tokensOf, segmentTokens, h0]
  | cons p rest =>
    obtain ⟨o, s1⟩ := p
    simp [tokensOf]

theorem joinOps_eq_nil_iff (s : Str) (rest : List (Char × Str)) :
    joinOps s rest = [] ↔ (s = [] ∧ rest = []) := by
  cases rest with
  | nil => simp [joinOps]
  | cons p rest => simp [joinOps]

theorem endsWithOperatorToken_append (a b : List Str) (hb : b ≠ []) :
    endsWithOperatorToken (a ++ b) = endsWithOperatorToken b := by
  unfold endsWithOperatorToken
  rw [List.getLast?_append_of_ne_nil a hb]

theorem endsWithAddSub_append (a b : Str) (hb : b ≠ []) :
    endsWithAddSub (a ++ b) = endsWithAddSub b := by
  unfold endsWithAddSub
  rw [List.getLast?_append_of_ne_nil a hb]

theorem endsWithAddSub_of_noAddSub (s : Str) (h : noAddSub s = true) :
    endsWithAddSub s = false := by
  unfold endsWithAddSub
  cases hl : s.getLast? with
  | none => rfl
  | some c =>
    have hc := List.all_eq_true.1 h c (List.mem_of_getLast?_eq_some hl)
    simpa using hc

theorem isOperatorToken_TrimSpace (s : Str) (h : noAddSub s = true) :
    isOperatorToken (TrimSpace s) = false := by
  unfold isOperatorToken
  apply decide_eq_false
  have hsub := TrimSpace_sublist s
  have hno := not_mem_of_noAddSub h
  rintro (ht | ht)
  · rw [ht] at hsub
    exact hno '+' (hsub.subset (by decide)) (by decide)
  · rw [ht] at hsub
    exact hno '-' (hsub.subset (by decide)) (by decide)

theorem isOperatorToken_singleton (o : Char) (h : isAddSub o = true) :
    isOperatorToken [o] = true := by
  have : o = '+' ∨ o = '-' := by simpa [isAddSub] using h
  rcases this with rfl | rfl <;> decide

/-- The last token is an operator exactly when the last character of the
input is one. -/
theorem endsWithOperatorToken_tokensOf (rest : List (Char × Str)) : ∀ s : Str,
    noAddSub s = true → validOps rest = true →
    endsWithOperatorToken (tokensOf s rest) = endsWithAddSub (joinOps s rest) := by
  induction rest with
  | nil =>
    intro s hs _
    have hcode : joinOps s [] = s := by simp [joinOps]
    rw [hcode, endsWithAddSub_of_noAddSub s hs, tokensOf, segmentTokens]
    by_cases h0 : s = []
    · rw [if_pos h0]; rfl
    · rw [if_neg h0]
      exact isOperatorToken_TrimSpace s hs
  | cons p rest ih =>
    intro s hs hv
    obtain ⟨o, s1⟩ := p
    simp only [validOps, Bool.and_eq_true] at hv
    have hjoin : joinOps s ((o, s1) :: rest) = (s ++ [o]) ++ joinOps s1 rest := by
      simp [joinOps]
    rw [hjoin, tokensOf]
    by_cases hnil : s1 = [] ∧ rest = []
    · rw [(tokensOf_eq_nil_iff s1 rest).2 hnil, (joinOps_eq_nil_iff s1 rest).2 hnil,
        List.append_nil, List.append_nil,
        endsWithOperatorToken_append _ [[o]] (by simp), endsWithAddSub_append _ [o] (by simp)]
      have h1 : endsWithOperatorToken [[o]] = isOperatorToken [o] := rfl
      have h2 : endsWithAddSub [o] = isAddSub o := rfl
      rw [h1, h2, isOperatorToken_singleton o hv.1.1, hv.1.1]
    · rw [endsWithOperatorToken_append _ _ (fun h => hnil ((tokensOf_eq_nil_iff s1 rest).1 h)),
        endsWithAddSub_append _ _ (fun h => hnil ((joinOps_eq_nil_iff s1 rest).1 h))]
      exact ih s1 hv.1.2 hv.2

/-- With an operator in the input, there are two tokens or more exactly when
the input has two characters or more. -/
theorem two_le_length_tokensOf (s : Str) (p : Char × Str) (rest : List (Char × Str)) :
    2 ≤ (tokensOf s (p :: rest)).length ↔ 2 ≤ (joinOps s (p :: rest)).length := by
  obtain ⟨o, s1⟩ := p
  have hjoin : joinOps s ((o, s1) :: rest) = (s ++ [o]) ++ joinOps s1 rest := by
    simp [joinOps]
  have hT := tokensOf_eq_nil_iff s1 rest
  have hC := joinOps_eq_nil_iff s1 rest
  rw [hjoin, tokensOf]
  simp only [List.length_append, List.length_singleton, segmentTokens]
  by_cases h0 : s = []
  · subst h0
    simp only [if_true, List.length_nil, Nat.zero_add]
    by_cases hnil : s1 = [] ∧ rest = []
    · rw [hT.2 hnil, hC.2 hnil]; simp
    · have h1 : 0 < (tokensOf s1 rest).length :=
        List.length_pos.2 (fun h => hnil (hT.1 h))
      have h2 : 0 < (joinOps s1 rest).length :=
        List.length_pos.2 (fun h => hnil (hC.1 h))
      constructor <;> intro _ <;> omega
  · have hs : 0 < s.length := List.length_pos.2 h0
    simp only [h0, if_false, List.length_singleton]
    constructor <;> intro _ <;> omega

theorem endsWithAddSub_iff (code : Str) :
    endsWithAddSub code = true ↔ ∃ c, code.getLast? = some c ∧ (c = '+' ∨ c = '-') := by
  unfold endsWithAddSub
  cases code.getLast? with
  | none => simp
  | some c => simp [isAddSub]

/-- C13. Totality of the add/sub generator on the output of the tokenizer: for
every input string `parse_tokens` returns, and `gen_c` on its tokens indexes
past the end of the tokens exactly when the input has two characters or more
and its last character is `+` or `-`; on every other input `gen_c` returns a
program text, as it does on the empty string and on the one-character inputs
`+` and `-`. -/
theorem gen_c_panics_iff (code : Str) :
    ∃ tokens, parse_tokens code = some tokens ∧
      (gen_c tokens = none ↔
        (2 ≤ code.length ∧ ∃ c, code.getLast? = some c ∧ (c = '+' ∨ c = '-'))) ∧
      (¬ (2 ≤ code.length ∧ ∃ c, code.getLast? = some c ∧ (c = '+' ∨ c = '-')) →
        ∃ text, gen_c tokens = some text ∧ compileText code = some text) ∧
      compileText "".toList = some "int main() \x7b\n\treturn t0;\n\x7d\n".toList ∧
      compileText "+".toList =
        some "int main() \x7b\n\tint t0 = 0 + +;\n\treturn t0;\n\x7d\n".toList ∧
      compileText "-".toList =
        some "int main() \x7b\n\tint t0 = 0 + -;\n\treturn t0;\n\x7d\n".toList ∧
      compileText "1+".toList = none := by
  obtain ⟨h1, h2, h3⟩ := splitOps_spec code
  have hiff : gen_c (tokensOf (splitOps code).1 (splitOps code).2) = none ↔
      (2 ≤ code.length ∧ ∃ c, code.getLast? = some c ∧ (c = '+' ∨ c = '-')) := by
    rw [gen_c_eq_none_iff, endsWithOperatorToken_tokensOf _ _ h2 h3, ← endsWithAddSub_iff]
    cases hrest : (splitOps code).2 with
    | nil =>
      rw [hrest] at h1
      have hcode : (splitOps code).1 = code := by simpa [joinOps] using h1
      have hend := endsWithAddSub_of_noAddSub _ h2
      rw [hcode] at hend
      rw [h1, hend]
      simp
    | cons p rest =>
      rw [hrest] at h1
      rw [two_le_length_tokensOf, h1]
      exact And.comm
  refine ⟨_, parse_tokens_eq code, hiff, ?_, by decide, by decide, by decide, by decide⟩
  intro hno
  cases hg : gen_c (tokensOf (splitOps code).1 (splitOps code).2) with
  | none => exact absurd (hiff.1 hg) hno
  | some text =>
    refine ⟨text, rfl, ?_⟩
    unfold compileText
    rw [parse_tokens_eq code]
    exact hg

end UgoBook
